import Mathlib

/-!
# Verification of the OFFSET_APP geometry-to-toolpath pipeline

Shallow embedding of the algorithmic core of the repository:

* `poly.py`   — polygon reconstruction (`group_lines_into_polygon`), perpendicular
  offsetting (`calculate_offset`), line equations (`calculate_line_equation`) and
  the adjacent-edge intersector (`solve_line_equations`);
* `arc_circle.py` — radius offsetting of circles and arcs (`process_dxf` loop body);
* `comp_poly.py`  — entity chaining (`find_leftmost_entity`, `find_connected_entity`,
  `arrange_entities_systematically`) and the G-code emitter (`generate_gcode`).

Coordinates are embedded as rationals (`ℚ`) where the source only performs
field arithmetic and comparisons, and as reals (`ℝ`) where it takes square
roots (`calculate_offset`).  Python floats are idealised as exact numbers;
Python `round` is modelled by mathematical rounding.  Loops are embedded as
fuel-indexed structural recursions where the fuel is the (strictly
decreasing) size of the work list, so that every definition computes.
-/

/-- A 2D point, as the pair of its coordinates. -/
abbrev Pt : Type := ℚ × ℚ

/-- A line segment, as the ordered pair of its endpoints. -/
abbrev Seg : Type := Pt × Pt

/-- `calculate_line_equation` from `src/poly.py`: coefficients `(A, B, C)`
computed from a segment's endpoints as `A = y2 - y1`, `B = -(x2 - x1)`,
`C = A * x1 + B * y1`. -/
def calculate_line_equation (offset_line : Seg) : ℚ × ℚ × ℚ :=
  let x1 := offset_line.1.1
  let y1 := offset_line.1.2
  let x2 := offset_line.2.1
  let y2 := offset_line.2.2
  (y2 - y1, -(x2 - x1), (y2 - y1) * x1 + (-(x2 - x1)) * y1)

/-- `solve_line_equations` from `src/poly.py`: Cramer's rule on the two
coefficient triples, returning `none` when the denominator `A1*B2 - A2*B1`
vanishes (parallel lines). -/
def solve_line_equations (e1 e2 : ℚ × ℚ × ℚ) : Option Pt :=
  let (a1, b1, c1) := e1
  let (a2, b2, c2) := e2
  let denominator := a1 * b2 - a2 * b1
  if denominator = 0 then none
  else some ((b1 * (-c2) - b2 * (-c1)) / denominator,
             (a2 * (-c1) - a1 * (-c2)) / denominator)

/-- Rounding a rational to 2 decimal places (Python `round(x, 2)`,
idealised to mathematical rounding on exact values). -/
def round2q (q : ℚ) : ℚ := (round (q * 100) : ℤ) / 100

/-- `find_intersection_points_of_adjacent_lines` from `src/poly.py`:
solve each pair, keep the solved ones, round to 2 decimals. -/
def find_intersection_points_of_adjacent_lines
    (adjacent_equations_sets : List ((ℚ × ℚ × ℚ) × (ℚ × ℚ × ℚ))) : List Pt :=
  adjacent_equations_sets.filterMap fun p =>
    (solve_line_equations p.1 p.2).map fun xy => (round2q xy.1, round2q xy.2)

/-! ## Circle/arc offsetting (`src/arc_circle.py`) -/

/-- An input CIRCLE or ARC entity as read by `arc_circle.process_dxf`. -/
inductive DxfEntity : Type
  | circle (center : Pt) (radius : ℚ)
  | arc (center : Pt) (radius start_angle end_angle : ℚ)
deriving DecidableEq

/-- An offset entity emitted by `arc_circle.process_dxf`. -/
inductive OffsetEntity : Type
  | circle (center : Pt) (radius : ℚ)
  | arc (center : Pt) (radius start_angle end_angle : ℚ)
deriving DecidableEq

def DxfEntity.radius : DxfEntity → ℚ
  | .circle _ r => r
  | .arc _ r _ _ => r

def DxfEntity.center : DxfEntity → Pt
  | .circle c _ => c
  | .arc c _ _ _ => c

/-- Angular bounds of an input entity (`none` for a full circle). -/
def DxfEntity.angles : DxfEntity → Option (ℚ × ℚ)
  | .circle _ _ => none
  | .arc _ _ sa ea => some (sa, ea)

def OffsetEntity.radius : OffsetEntity → ℚ
  | .circle _ r => r
  | .arc _ r _ _ => r

def OffsetEntity.center : OffsetEntity → Pt
  | .circle c _ => c
  | .arc c _ _ _ => c

def OffsetEntity.angles : OffsetEntity → Option (ℚ × ℚ)
  | .circle _ _ => none
  | .arc _ _ sa ea => some (sa, ea)

/-- Loop body of `arc_circle.process_dxf`: `new_radius = radius + offset_distance`;
the offset entity is appended only when `new_radius > 0`, with center (and, for
arcs, angular bounds) carried over unchanged. -/
def offset_entity (offset_distance : ℚ) : DxfEntity → Option OffsetEntity
  | .circle center radius =>
      if 0 < radius + offset_distance then
        some (.circle center (radius + offset_distance)) else none
  | .arc center radius start_angle end_angle =>
      if 0 < radius + offset_distance then
        some (.arc center (radius + offset_distance) start_angle end_angle) else none

/-- The entity loop of `arc_circle.process_dxf` over the already-parsed
modelspace entities. -/
def process_dxf_offsets (entities : List DxfEntity) (offset_distance : ℚ) :
    List OffsetEntity :=
  entities.filterMap (offset_entity offset_distance)

/-! ## Theorems for claims C2, C3, C4, C10 -/

/-- **C2.** A circle or arc of radius `r` offset by `d` is emitted exactly when
`r + d > 0`; when emitted it has radius `r + d` with center and angular bounds
unchanged.  A circle of radius 10 offset by −15 produces no offset entity,
and offset by 5 produces radius 15. -/
theorem offset_circle_arc_spec (e : DxfEntity) (d : ℚ) (c : Pt) :
    ((offset_entity d e).isSome ↔ 0 < e.radius + d) ∧
    (∀ o : OffsetEntity, offset_entity d e = some o →
      o.radius = e.radius + d ∧ o.center = e.center ∧ o.angles = e.angles) ∧
    process_dxf_offsets [.circle c 10] (-15) = [] ∧
    process_dxf_offsets [.circle c 10] 5 = [.circle c 15] := by
  refine ⟨?_, ?_, ?_, ?_⟩
  · cases e <;> simp only [offset_entity, DxfEntity.radius] <;> split <;>
      simp_all
  · intro o ho
    cases e <;> simp only [offset_entity] at ho <;> split at ho <;>
      [skip; exact Option.noConfusion ho; skip; exact Option.noConfusion ho] <;>
      rw [Option.some_inj] at ho <;> subst ho <;>
      simp [OffsetEntity.radius, OffsetEntity.center, OffsetEntity.angles,
        DxfEntity.radius, DxfEntity.center, DxfEntity.angles]
  · norm_num [process_dxf_offsets, offset_entity, List.filterMap]
  · norm_num [process_dxf_offsets, offset_entity, List.filterMap]

/-- **C2 witness.** Concrete instance: an arc of radius 3 offset by 2. -/
theorem offset_circle_arc_spec_witness :
    (offset_entity 2 (.arc (0, 0) 3 10 90)).isSome ∧
    (∀ o : OffsetEntity, offset_entity 2 (.arc (0, 0) 3 10 90) = some o →
      o.radius = 5 ∧ o.center = (0, 0) ∧ o.angles = some (10, 90)) := by
  obtain ⟨h1, h2, _, _⟩ := offset_circle_arc_spec (.arc (0, 0) 3 10 90) 2 (0, 0)
  refine ⟨h1.mpr (by norm_num [DxfEntity.radius]), ?_⟩
  intro o ho
  have h3 := h2 o ho
  norm_num [DxfEntity.radius, DxfEntity.center, DxfEntity.angles] at h3
  exact h3

/-- **C3 counterexample.** The claim states that the triples `(1,0,−5)` and
`(0,1,−5)` intersect at `(5,5)` (and the parallel pair yields `none`); the
solver in the code actually returns `(−5,−5)` for the first pair, because its
working convention is `A·x + B·y = C`. -/
theorem solve_example_counterexample :
    ¬ (solve_line_equations (1, 0, -5) (0, 1, -5) = some (5, 5) ∧
       solve_line_equations (1, 0, -5) (1, 0, -10) = none) := by
  have he : solve_line_equations (1, 0, -5) (0, 1, -5) = some (-5, -5) := by
    norm_num [solve_line_equations]
  rintro ⟨h1, -⟩
  rw [he] at h1
  norm_num [Prod.ext_iff] at h1

/-- **C3 amended.** The perpendicular pair `(1,0,−5)`, `(0,1,−5)` intersects at
`(−5,−5)` (the spec's `(5,5)` would correspond to the triples `(1,0,5)`,
`(0,1,5)` under the solver's `A·x + B·y = C` convention), and the parallel
pair `(1,0,−5)`, `(1,0,−10)` yields no intersection point. -/
theorem solve_example_amended :
    solve_line_equations (1, 0, -5) (0, 1, -5) = some (-5, -5) ∧
    solve_line_equations (1, 0, -5) (1, 0, -10) = none := by
  constructor <;> norm_num [solve_line_equations]

/-- **C4 counterexample.** For the segment from `(1,0)` to `(0,1)` (distinct
endpoints), the triple `(A,B,C) = (1,1,1)` computed by
`calculate_line_equation` does *not* satisfy `A·x + B·y + C = 0` at the first
endpoint: the code's convention is `A·x + B·y = C`, not `A·x + B·y + C = 0`. -/
theorem line_equation_counterexample :
    ((1 : ℚ), (0 : ℚ)) ≠ ((0 : ℚ), (1 : ℚ)) ∧
    ¬ ((calculate_line_equation ((1, 0), (0, 1))).1 * 1 +
       (calculate_line_equation ((1, 0), (0, 1))).2.1 * 0 +
       (calculate_line_equation ((1, 0), (0, 1))).2.2 = 0) := by
  constructor
  · norm_num [Prod.ext_iff]
  · norm_num [calculate_line_equation]

/-- **C4 amended.** For every segment with two distinct endpoints, the triple
`(A, B, C)` computed by `calculate_line_equation` satisfies `A·x + B·y = C`
at both endpoints and at every point of the segment's carrier line. -/
theorem line_equation_amended (x1 y1 x2 y2 : ℚ) (h : (x1, y1) ≠ (x2, y2)) :
    ((calculate_line_equation ((x1, y1), (x2, y2))).1 * x1 +
      (calculate_line_equation ((x1, y1), (x2, y2))).2.1 * y1 =
      (calculate_line_equation ((x1, y1), (x2, y2))).2.2) ∧
    ((calculate_line_equation ((x1, y1), (x2, y2))).1 * x2 +
      (calculate_line_equation ((x1, y1), (x2, y2))).2.1 * y2 =
      (calculate_line_equation ((x1, y1), (x2, y2))).2.2) ∧
    ∀ t : ℚ,
      (calculate_line_equation ((x1, y1), (x2, y2))).1 * (x1 + t * (x2 - x1)) +
        (calculate_line_equation ((x1, y1), (x2, y2))).2.1 * (y1 + t * (y2 - y1)) =
        (calculate_line_equation ((x1, y1), (x2, y2))).2.2 := by
  refine ⟨?_, ?_, fun t => ?_⟩ <;> simp only [calculate_line_equation] <;> ring

/-- **C4 amended witness.** Concrete instance on the segment `(0,0)`–`(1,1)`
at the segment point with parameter `t = 2`. -/
theorem line_equation_amended_witness :
    (calculate_line_equation ((0, 0), (1, 1))).1 * (0 + 2 * (1 - 0)) +
      (calculate_line_equation ((0, 0), (1, 1))).2.1 * (0 + 2 * (1 - 0)) =
      (calculate_line_equation ((0, 0), (1, 1))).2.2 :=
  (line_equation_amended 0 0 1 1 (by norm_num [Prod.ext_iff])).2.2 2

/-- **C10.** When `A1·B2 − A2·B1 ≠ 0`, `solve_line_equations` returns the
unique solution of `A1·x + B1·y = C1 ∧ A2·x + B2·y = C2` (the solver's working
convention, with `C` on the right-hand side); consequently, for triples
produced by `calculate_line_equation` from two segments, any returned point
lies on both segments' carrier lines. -/
theorem solve_line_equations_cramer :
    (∀ a1 b1 c1 a2 b2 c2 : ℚ, a1 * b2 - a2 * b1 ≠ 0 →
      ∃ x y : ℚ, solve_line_equations (a1, b1, c1) (a2, b2, c2) = some (x, y) ∧
        a1 * x + b1 * y = c1 ∧ a2 * x + b2 * y = c2 ∧
        ∀ u v : ℚ, a1 * u + b1 * v = c1 → a2 * u + b2 * v = c2 → u = x ∧ v = y) ∧
    (∀ p1 p2 p3 p4 : Pt, ∀ x y : ℚ,
      solve_line_equations (calculate_line_equation (p1, p2))
          (calculate_line_equation (p3, p4)) = some (x, y) →
        (x - p1.1) * (p2.2 - p1.2) = (y - p1.2) * (p2.1 - p1.1) ∧
        (x - p3.1) * (p4.2 - p3.2) = (y - p3.2) * (p4.1 - p3.1)) := by
  have key : ∀ a1 b1 c1 a2 b2 c2 : ℚ, a1 * b2 - a2 * b1 ≠ 0 →
      ∃ x y : ℚ, solve_line_equations (a1, b1, c1) (a2, b2, c2) = some (x, y) ∧
        a1 * x + b1 * y = c1 ∧ a2 * x + b2 * y = c2 ∧
        ∀ u v : ℚ, a1 * u + b1 * v = c1 → a2 * u + b2 * v = c2 → u = x ∧ v = y := by
    intro a1 b1 c1 a2 b2 c2 hden
    refine ⟨(b1 * (-c2) - b2 * (-c1)) / (a1 * b2 - a2 * b1),
            (a2 * (-c1) - a1 * (-c2)) / (a1 * b2 - a2 * b1), ?_, ?_, ?_, ?_⟩
    · simp only [solve_line_equations, if_neg hden]
    · field_simp
      ring
    · field_simp
      ring
    · intro u v h1 h2
      constructor
      · field_simp
        linear_combination b2 * h1 - b1 * h2
      · field_simp
        linear_combination a1 * h2 - a2 * h1
  refine ⟨key, ?_⟩
  intro p1 p2 p3 p4 x y hxy
  by_cases hden : (calculate_line_equation (p1, p2)).1 *
      (calculate_line_equation (p3, p4)).2.1 -
      (calculate_line_equation (p3, p4)).1 *
      (calculate_line_equation (p1, p2)).2.1 = 0
  · exfalso
    simp only [solve_line_equations] at hxy
    rw [if_pos hden] at hxy
    exact Option.noConfusion hxy
  · obtain ⟨x0, y0, heq, h1, h2, -⟩ :=
      key (calculate_line_equation (p1, p2)).1 (calculate_line_equation (p1, p2)).2.1
        (calculate_line_equation (p1, p2)).2.2 (calculate_line_equation (p3, p4)).1
        (calculate_line_equation (p3, p4)).2.1 (calculate_line_equation (p3, p4)).2.2
        hden
    rw [heq] at hxy
    obtain ⟨hx, hy⟩ := Prod.mk.injEq .. ▸ (Option.some.injEq .. ▸ hxy)
    subst hx; subst hy
    simp only [calculate_line_equation] at h1 h2
    constructor
    · linear_combination h1
    · linear_combination h2

/-- **C10 witness.** The triples `(1,0,5)` and `(0,1,5)` (convention
`A·x + B·y = C`) intersect at `(5,5)`. -/
theorem solve_line_equations_cramer_witness :
    solve_line_equations (1, 0, 5) (0, 1, 5) = some (5, 5) := by
  obtain ⟨x, y, heq, h1, h2, huniq⟩ :=
    solve_line_equations_cramer.1 1 0 5 0 1 5 (by norm_num)
  obtain ⟨hx, hy⟩ := huniq 5 5 (by norm_num) (by norm_num)
  rw [heq, ← hx, ← hy]

/-! ## Polygon reconstruction (`group_lines_into_polygon` in `src/poly.py`)

The algorithm is pure endpoint-adjacency logic, so it is embedded
generically over any type of points with decidable equality (the source
applies it to rounded 2D coordinate tuples).  The Python `while` loops are
embedded as fuel-indexed recursions; the fuel is the size of the unvisited
pool, which strictly decreases at every iteration, so the fuel never runs
out on the initial call. -/

section PolygonReconstructor

variable {α : Type} [DecidableEq α]

/-- One scan of the inner `for other_line in list(unvisited_lines)` loop of
`group_lines_into_polygon`: find the first unvisited segment whose start
matches `cur`'s end (taken as is) or whose end matches it (taken flipped);
return it together with the pool minus the matched element. -/
def find_next_line (cur : α × α) : List (α × α) → Option ((α × α) × List (α × α))
  | [] => none
  | other :: rest =>
    if cur.2 = other.1 then some (other, rest)
    else if cur.2 = other.2 then some ((other.2, other.1), rest)
    else
      match find_next_line cur rest with
      | none => none
      | some (nxt, pool) => some (nxt, other :: pool)

/-- The inner `while True` loop of `group_lines_into_polygon`: repeatedly
extend the chain from the current segment until no unvisited segment
matches.  Returns the appended segments (in order) and the remaining pool. -/
def build_chain : ℕ → (α × α) → List (α × α) → List (α × α) × List (α × α)
  | 0, _, pool => ([], pool)
  | fuel + 1, cur, pool =>
    match find_next_line cur pool with
    | none => ([], pool)
    | some (nxt, pool2) =>
      let r := build_chain fuel nxt pool2
      (nxt :: r.1, r.2)

/-- The outer `while unvisited_lines` loop of `group_lines_into_polygon`:
pop a seed, build its chain, and keep the chain only when it has more than
one segment and closes up (`current_polygon[-1][1] == current_polygon[0][0]`). -/
def group_loop : ℕ → List (α × α) → List (List (α × α))
  | 0, _ => []
  | fuel + 1, pool =>
    match pool with
    | [] => []
    | seed :: rest =>
      let bc := build_chain rest.length seed rest
      let current_polygon := seed :: bc.1
      let out := group_loop fuel bc.2
      if 1 < current_polygon.length ∧
          (current_polygon.getLast (List.cons_ne_nil _ _)).2 = seed.1 then
        current_polygon :: out
      else out

/-- `group_lines_into_polygon` from `src/poly.py`.  The Python
`unvisited_lines = set(lines)` is modelled by `lines.dedup` (the set
deduplicates; its iteration order is arbitrary, and any deterministic
order is a faithful refinement). -/
def group_lines_into_polygon (lines : List (α × α)) : List (List (α × α)) :=
  group_loop lines.dedup.length lines.dedup

/-- The unordered pair of endpoints of a segment: the identity of a segment
up to flipping. -/
def canonSeg (s : α × α) : Sym2 α := Sym2.mk s

theorem canonSeg_swap (s : α × α) : canonSeg (s.2, s.1) = canonSeg s := by
  cases s; exact Sym2.eq_swap

/-- `find_next_line` removes exactly one pool element, whose unordered
endpoint pair is that of the returned segment, and the returned segment
starts at the current end point. -/
theorem find_next_line_spec (cur : α × α) :
    ∀ pool nxt pool2, find_next_line cur pool = some (nxt, pool2) →
      nxt.1 = cur.2 ∧
      (canonSeg nxt ::ₘ (↑(pool2.map canonSeg) : Multiset (Sym2 α))) =
        ↑(pool.map canonSeg) ∧
      pool2.length + 1 = pool.length := by
  intro pool
  induction pool with
  | nil => intro nxt pool2 h; exact Option.noConfusion h
  | cons other rest ih =>
    intro nxt pool2 h
    by_cases h1 : cur.2 = other.1
    · rw [find_next_line, if_pos h1, Option.some_inj] at h
      simp only [Prod.mk.injEq] at h
      obtain ⟨rfl, rfl⟩ := h
      exact ⟨h1.symm, by simp [← Multiset.cons_coe], by simp⟩
    · by_cases h2 : cur.2 = other.2
      · rw [find_next_line, if_neg h1, if_pos h2, Option.some_inj] at h
        simp only [Prod.mk.injEq] at h
        obtain ⟨rfl, rfl⟩ := h
        refine ⟨h2.symm, ?_, by simp⟩
        rw [canonSeg_swap other]
        simp [← Multiset.cons_coe]
      · rw [find_next_line, if_neg h1, if_neg h2] at h
        rcases hrec : find_next_line cur rest with - | ⟨nxt0, pool0⟩ <;>
          rw [hrec] at h
        · exact Option.noConfusion h
        · rw [Option.some_inj] at h
          simp only [Prod.mk.injEq] at h
          obtain ⟨rfl, rfl⟩ := h
          obtain ⟨ha, hb, hc⟩ := ih nxt0 pool0 hrec
          refine ⟨ha, ?_, by simp only [List.length_cons]; omega⟩
          simp only [List.map_cons, ← Multiset.cons_coe]
          rw [Multiset.cons_swap, hb]

/-- `build_chain` consumes pool elements: the chain plus the final pool is,
as a multiset of unordered endpoint pairs, the initial pool; the pool never
grows. -/
theorem build_chain_spec :
    ∀ (fuel : ℕ) (cur : α × α) (pool chain pool2 : List (α × α)),
      build_chain fuel cur pool = (chain, pool2) →
      (↑(chain.map canonSeg) : Multiset (Sym2 α)) + ↑(pool2.map canonSeg) =
        ↑(pool.map canonSeg) ∧
      pool2.length ≤ pool.length := by
  intro fuel
  induction fuel with
  | zero =>
    intro cur pool chain pool2 h
    obtain ⟨h1, h2⟩ := Prod.mk.injEq .. ▸ h
    subst h1; subst h2
    simp
  | succ n ih =>
    intro cur pool chain pool2 h
    simp only [build_chain] at h
    split at h
    · obtain ⟨h1, h2⟩ := Prod.mk.injEq .. ▸ h
      subst h1; subst h2
      simp
    · rename_i nxt poolA hfind
      obtain ⟨h1, h2⟩ := Prod.mk.injEq .. ▸ h
      obtain ⟨hb, hc⟩ := ih nxt poolA (build_chain n nxt poolA).1 (build_chain n nxt poolA).2 rfl
      obtain ⟨-, hm, hlen⟩ := find_next_line_spec cur pool nxt poolA hfind
      subst h1; subst h2
      constructor
      · simp only [List.map_cons, ← Multiset.cons_coe]
        rw [Multiset.cons_add, hb, hm]
      · omega

/-- The polygons emitted by the outer loop consume pairwise-disjoint parts
of the pool: joined together (as multisets of unordered endpoint pairs)
they are contained in the pool. -/
theorem group_loop_sub :
    ∀ (fuel : ℕ) (pool : List (α × α)), pool.length ≤ fuel →
      ((group_loop fuel pool).map
          (fun poly => (↑(poly.map canonSeg) : Multiset (Sym2 α)))).sum ≤
        ↑(pool.map canonSeg) := by
  intro fuel
  induction fuel with
  | zero => intro pool h; simp [group_loop]
  | succ n ih =>
    intro pool hlen
    cases pool with
    | nil => simp [group_loop]
    | cons seed rest =>
      obtain ⟨hm, hl⟩ := build_chain_spec rest.length seed rest
        (build_chain rest.length seed rest).1 (build_chain rest.length seed rest).2 rfl
      have hrest : rest.length ≤ n := by
        simp only [List.length_cons] at hlen; omega
      have hrec := ih (build_chain rest.length seed rest).2 (le_trans hl hrest)
      simp only [group_loop]
      split
      · simp only [List.map_cons, List.sum_cons, ← Multiset.cons_coe]
        rw [Multiset.cons_add]
        exact Multiset.cons_le_cons _ (le_trans (add_le_add_left hrec _) (le_of_eq hm))
      · simp only [List.map_cons, ← Multiset.cons_coe]
        refine le_trans hrec (le_trans ?_ (Multiset.le_cons_self _ _))
        rw [← hm]
        exact Multiset.le_add_left _ _

/-- Counting the polygons that contain a segment (as given or flipped) is
bounded by the multiplicity of its unordered endpoint pair in the joined
polygons. -/
theorem countP_le_canon_count (s : α × α) :
    ∀ polys : List (List (α × α)),
      polys.countP (fun poly => decide (s ∈ poly) || decide ((s.2, s.1) ∈ poly)) ≤
      ((polys.map fun poly => (↑(poly.map canonSeg) : Multiset (Sym2 α))).sum).count
        (canonSeg s) := by
  intro polys
  induction polys with
  | nil => simp
  | cons poly ps ih =>
    rw [List.countP_cons]
    simp only [List.map_cons, List.sum_cons, Multiset.count_add]
    by_cases hp : (decide (s ∈ poly) || decide ((s.2, s.1) ∈ poly)) = true
    · have h1 : 1 ≤ Multiset.count (canonSeg s) (↑(poly.map canonSeg) : Multiset (Sym2 α)) := by
        rw [Multiset.one_le_count_iff_mem, Multiset.mem_coe]
        rcases Bool.or_eq_true_iff.mp hp with h | h
        · exact List.mem_map_of_mem canonSeg (of_decide_eq_true h)
        · rw [← canonSeg_swap s]
          exact List.mem_map_of_mem canonSeg (of_decide_eq_true h)
      rw [if_pos hp]
      omega
    · rw [if_neg hp]
      omega

set_option maxHeartbeats 1000000 in
/-- **C5 counterexample.** A single segment that does not close into a
polygon appears in *zero* of the returned polygons, not exactly one: the
input segment `((0,0),(1,0))` is in the input, yet the count of output
polygons containing it (as given or flipped) is 0, not 1. -/
theorem group_lines_exactly_once_counterexample :
    (((0, 0), (1, 0)) : (ℤ × ℤ) × (ℤ × ℤ)) ∈ [((((0, 0) : ℤ × ℤ)), ((1, 0) : ℤ × ℤ))] ∧
    ¬ ((group_lines_into_polygon [(((0, 0) : ℤ × ℤ), ((1, 0) : ℤ × ℤ))]).countP
        (fun poly => decide ((((0, 0) : ℤ × ℤ), ((1, 0) : ℤ × ℤ)) ∈ poly) ||
          decide ((((1, 0) : ℤ × ℤ), ((0, 0) : ℤ × ℤ)) ∈ poly)) = 1) := by
  decide

/-- **C5 amended.** For every input list of segments without duplicates (up
to flipping, per the spec's "duplicates not assumed"), every input segment
appears — as given or flipped end-for-start — in *at most* one of the
polygons returned by `group_lines_into_polygon`; segments of chains that
fail to close appear in none. -/
theorem group_lines_at_most_one (lines : List (α × α))
    (hnd : (lines.map canonSeg).Nodup) (s : α × α) (hs : s ∈ lines) :
    (group_lines_into_polygon lines).countP
      (fun poly => decide (s ∈ poly) || decide ((s.2, s.1) ∈ poly)) ≤ 1 := by
  have hln : lines.Nodup := hnd.of_map
  rw [group_lines_into_polygon, List.dedup_eq_self.mpr hln]
  have hsub := group_loop_sub lines.length lines le_rfl
  have hcnt := countP_le_canon_count s (group_loop lines.length lines)
  have hone : Multiset.count (canonSeg s) (↑(lines.map canonSeg) : Multiset (Sym2 α)) ≤ 1 := by
    rw [Multiset.coe_count]
    exact List.nodup_iff_count_le_one.mp hnd _
  have hle := Multiset.count_le_of_le (canonSeg s) hsub
  omega

set_option maxHeartbeats 1000000 in
/-- **C5 amended witness.** Concrete instance of `group_lines_at_most_one`
on a one-segment input. -/
theorem group_lines_at_most_one_witness :
    (group_lines_into_polygon [(((0, 0) : ℤ × ℤ), ((1, 0) : ℤ × ℤ))]).countP
      (fun poly => decide ((((0, 0) : ℤ × ℤ), ((1, 0) : ℤ × ℤ)) ∈ poly) ||
        decide ((((1, 0) : ℤ × ℤ), ((0, 0) : ℤ × ℤ)) ∈ poly)) ≤ 1 :=
  group_lines_at_most_one [(((0, 0) : ℤ × ℤ), ((1, 0) : ℤ × ℤ))] (by decide)
    (((0, 0), (1, 0))) (by decide)

end PolygonReconstructor

/-! ## Closed loops and open chains of segments

To state what `group_lines_into_polygon` does on an input that "forms a
single closed loop" or a "single non-closing open chain" (claim C6), we
describe such inputs by their vertex list: `chainE l` is the edge list of
the open chain visiting the vertices of `l` in order, and `loopE l` closes
it back to the first vertex.  An input *forms* that chain or loop when its
multiset of unordered endpoint pairs coincides with the one of `chainE l`
resp. `loopE l` — this captures "supplied in any order and with each
segment in either orientation". -/

section ChainsAndLoops

variable {α : Type} [DecidableEq α]

/-- Edges of the open chain visiting the given vertices in order. -/
def chainE : List α → List (α × α)
  | [] => []
  | [_] => []
  | a :: b :: t => (a, b) :: chainE (b :: t)

/-- Edges of the closed loop visiting the given vertices in order and
returning to the first one. -/
def loopE : List α → List (α × α)
  | [] => []
  | a :: t => chainE (a :: t) ++ [((a :: t).getLast (List.cons_ne_nil a t), a)]

theorem chainE_length : ∀ l : List α, (chainE l).length = l.length - 1 := by
  intro l
  induction l with
  | nil => rfl
  | cons a t ih =>
    cases t with
    | nil => rfl
    | cons b t2 =>
      simp only [chainE, List.length_cons] at ih ⊢
      rw [ih]
      omega

theorem mem_chainE : ∀ (l : List α) (e : α × α), e ∈ chainE l → e.1 ∈ l ∧ e.2 ∈ l := by
  intro l
  induction l with
  | nil => intro e h; simp [chainE] at h
  | cons a t ih =>
    cases t with
    | nil => intro e h; simp [chainE] at h
    | cons b t2 =>
      intro e h
      rw [chainE, List.mem_cons] at h
      rcases h with rfl | h
      · simp
      · obtain ⟨h1, h2⟩ := ih e h
        exact ⟨List.mem_cons_of_mem _ h1, List.mem_cons_of_mem _ h2⟩

theorem chainE_cons_of_ne_nil (a : α) (l : List α) (h : l ≠ []) :
    chainE (a :: l) = (a, l.head h) :: chainE l := by
  cases l with
  | nil => exact absurd rfl h
  | cons b t => rfl

theorem chainE_append (l1 l2 : List α) (h1 : l1 ≠ []) (h2 : l2 ≠ []) :
    chainE (l1 ++ l2) = chainE l1 ++ (l1.getLast h1, l2.head h2) :: chainE l2 := by
  induction l1 with
  | nil => exact absurd rfl h1
  | cons a t ih =>
    cases t with
    | nil =>
      simp only [List.singleton_append]
      rw [chainE_cons_of_ne_nil a l2 h2]
      rfl
    | cons b t2 =>
      have step : chainE ((a :: b :: t2) ++ l2) = (a, b) :: chainE ((b :: t2) ++ l2) := rfl
      rw [step, ih (by simp)]
      rw [List.getLast_cons (by simp : (b : α) :: t2 ≠ [])]
      rfl

theorem chainE_getLast :
    ∀ (l : List α) (h : chainE l ≠ []) (h2 : l ≠ []),
      ((chainE l).getLast h).2 = l.getLast h2 := by
  intro l
  induction l with
  | nil => intro h _; simp [chainE] at h
  | cons a t ih =>
    cases t with
    | nil => intro h _; simp [chainE] at h
    | cons b t2 =>
      intro h h2
      cases t2 with
      | nil => rfl
      | cons c t3 =>
        have hne : chainE (b :: c :: t3) ≠ [] := by rw [chainE]; simp
        show (((a, b) :: chainE (b :: c :: t3)).getLast (List.cons_ne_nil _ _)).2 =
          (a :: b :: c :: t3).getLast h2
        rw [List.getLast_cons hne, ih hne (by simp),
          List.getLast_cons (by simp : (b : α) :: c :: t3 ≠ [])]

theorem chainE_canon_nodup : ∀ l : List α, l.Nodup → ((chainE l).map canonSeg).Nodup := by
  intro l
  induction l with
  | nil => intro _; simp [chainE]
  | cons a t ih =>
    cases t with
    | nil => intro _; simp [chainE]
    | cons b t2 =>
      intro hnd
      rw [chainE, List.map_cons, List.nodup_cons]
      refine ⟨?_, ih hnd.of_cons⟩
      intro hmem
      obtain ⟨e, he, hce⟩ := List.mem_map.mp hmem
      have ha : a ∈ Sym2.mk e := by
        rw [show Sym2.mk e = canonSeg e from rfl, hce]
        exact Sym2.mem_mk_left a b
      obtain ⟨h1, h2⟩ := mem_chainE (b :: t2) e he
      have hin : a ∈ b :: t2 := by
        rcases Sym2.mem_iff.mp ha with h3 | h3
        · exact h3 ▸ h1
        · exact h3 ▸ h2
      exact (List.nodup_cons.mp hnd).1 hin

theorem chainE_reverse_canon : ∀ l : List α,
    (↑((chainE l.reverse).map canonSeg) : Multiset (Sym2 α)) =
      ↑((chainE l).map canonSeg) := by
  intro l
  induction l with
  | nil => rfl
  | cons a t ih =>
    cases t with
    | nil => rfl
    | cons b t2 =>
      have hrev : ((a :: b :: t2).reverse : List α) = (b :: t2).reverse ++ [a] := by
        simp
      rw [hrev, chainE_append ((b :: t2).reverse) [a] (by simp) (by simp)]
      have hlast : ((b :: t2).reverse.getLast (by simp) : α) = b :=
        List.getLast_reverse (by simp)
      rw [hlast]
      have hsw : canonSeg (b, a) = canonSeg (a, b) := canonSeg_swap (a, b)
      show (↑(((chainE (b :: t2).reverse) ++ [(b, a)]).map canonSeg) : Multiset (Sym2 α)) =
        ↑((chainE (a :: b :: t2)).map canonSeg)
      rw [List.map_append, ← Multiset.coe_add, ih,
        show (([(b, a)] : List (α × α)).map canonSeg : List (Sym2 α)) = [canonSeg (b, a)]
          from rfl,
        Multiset.coe_singleton, hsw,
        show ((chainE (a :: b :: t2)).map canonSeg : List (Sym2 α)) =
          canonSeg (a, b) :: (chainE (b :: t2)).map canonSeg from rfl,
        ← Multiset.cons_coe, add_comm, Multiset.singleton_add]

/-- Any edge of a chain splits the vertex list, and the chain's edge list,
around it. -/
theorem mem_chainE_decomp :
    ∀ (l : List α) (e : α × α), e ∈ chainE l →
      ∃ l1 l2, l = l1 ++ e.1 :: e.2 :: l2 ∧
        chainE l = chainE (l1 ++ [e.1]) ++ e :: chainE (e.2 :: l2) := by
  intro l
  induction l with
  | nil => intro e h; simp [chainE] at h
  | cons a t ih =>
    cases t with
    | nil => intro e h; simp [chainE] at h
    | cons b t2 =>
      intro e h
      rw [chainE, List.mem_cons] at h
      rcases h with rfl | h
      · exact ⟨[], t2, rfl, rfl⟩
      · obtain ⟨l1, l2, hl, hc⟩ := ih e h
        refine ⟨a :: l1, l2, by rw [List.cons_append, ← hl], ?_⟩
        have hb : (l1 ++ [e.1]).head (by simp) = b := by
          cases l1 with
          | nil =>
            show ([e.1].head (List.cons_ne_nil _ _)) = b
            rw [List.head_cons]
            simp only [List.nil_append] at hl
            exact (List.cons.injEq .. ▸ hl).1.symm
          | cons c l1t =>
            rw [List.head_append_of_ne_nil (by simp), List.head_cons]
            exact (List.cons.injEq .. ▸ hl).1.symm
        calc chainE (a :: b :: t2) = (a, b) :: chainE (b :: t2) := rfl
          _ = (a, b) :: (chainE (l1 ++ [e.1]) ++ e :: chainE (e.2 :: l2)) := by rw [hc]
          _ = chainE ((a :: l1) ++ [e.1]) ++ e :: chainE (e.2 :: l2) := by
              rw [show ((a :: l1) ++ [e.1] : List α) = a :: (l1 ++ [e.1]) from rfl,
                chainE_cons_of_ne_nil a (l1 ++ [e.1]) (by simp), hb, List.cons_append]

/-- If no unvisited segment touches the current end point, the scan finds
nothing. -/
theorem find_next_line_none (x w : α) :
    ∀ pool : List (α × α), (∀ s ∈ pool, s.1 ≠ w ∧ s.2 ≠ w) →
      find_next_line (x, w) pool = none := by
  intro pool
  induction pool with
  | nil => intro _; rfl
  | cons s rest ih =>
    intro h
    obtain ⟨h1, h2⟩ := h s (List.mem_cons_self ..)
    rw [find_next_line, if_neg (Ne.symm h1), if_neg (Ne.symm h2),
      ih (fun t ht => h t (List.mem_cons_of_mem _ ht))]

/-- If some unvisited segment touches the current end point `w`, and every
unvisited segment touching `w` has the unordered endpoints `{w, v}`, the
scan returns exactly the segment `(w, v)` and removes one matching pool
element. -/
theorem find_next_line_det (x w v : α) (hne : w ≠ v) :
    ∀ pool : List (α × α),
      (∃ s ∈ pool, s.1 = w ∨ s.2 = w) →
      (∀ s ∈ pool, (s.1 = w ∨ s.2 = w) → canonSeg s = canonSeg (w, v)) →
      ∃ p2, find_next_line (x, w) pool = some ((w, v), p2) ∧
        canonSeg (w, v) ::ₘ (↑(p2.map canonSeg) : Multiset (Sym2 α)) =
          ↑(pool.map canonSeg) ∧
        p2.length + 1 = pool.length := by
  intro pool
  induction pool with
  | nil => rintro ⟨s, hs, -⟩ _; simp at hs
  | cons s rest ih =>
    rintro hex huniq
    by_cases hc1 : w = s.1
    · have hcs : canonSeg s = canonSeg (w, v) :=
        huniq s (List.mem_cons_self ..) (Or.inl hc1.symm)
      have hs2 : s.2 = v := by
        rcases Sym2.eq_iff.mp hcs with ⟨-, h⟩ | ⟨ha, -⟩
        · exact h
        · exact absurd (hc1.trans ha) hne
      have hseq : s = (w, v) := Prod.ext hc1.symm hs2
      refine ⟨rest, ?_, ?_, by simp⟩
      · rw [find_next_line, if_pos hc1, hseq]
      · rw [← hcs]
        simp [← Multiset.cons_coe]
    · by_cases hc2 : w = s.2
      · have hcs : canonSeg s = canonSeg (w, v) :=
          huniq s (List.mem_cons_self ..) (Or.inr hc2.symm)
        have hs1 : s.1 = v := by
          rcases Sym2.eq_iff.mp hcs with ⟨ha, -⟩ | ⟨ha, -⟩
          · exact absurd ha.symm hc1
          · exact ha
        refine ⟨rest, ?_, ?_, by simp⟩
        · rw [find_next_line, if_neg hc1, if_pos hc2,
            show ((s.2, s.1) : α × α) = (w, v) by rw [hs1, ← hc2]]
        · rw [← hcs]
          simp [← Multiset.cons_coe]
      · have hexr : ∃ t ∈ rest, t.1 = w ∨ t.2 = w := by
          obtain ⟨t, ht, hor⟩ := hex
          rcases List.mem_cons.mp ht with rfl | htr
          · rcases hor with h | h
            · exact absurd h.symm hc1
            · exact absurd h.symm hc2
          · exact ⟨t, htr, hor⟩
        obtain ⟨p0, hfind, hm, hlen⟩ :=
          ih hexr (fun t ht hor => huniq t (List.mem_cons_of_mem _ ht) hor)
        refine ⟨s :: p0, ?_, ?_, by simp only [List.length_cons]; omega⟩
        · rw [find_next_line, if_neg hc1, if_neg hc2, hfind]
        · simp only [List.map_cons, ← Multiset.cons_coe]
          rw [Multiset.cons_swap, hm]

/-- The chain-extension loop started at the head of a duplicate-free vertex
path consumes exactly the path's edges, in path order, leaving the rest of
the pool (whose edges must avoid the path's vertices) untouched. -/
theorem build_chain_chainE :
    ∀ (t : List α) (fuel : ℕ) (w x : α) (pool : List (α × α)) (M : Multiset (Sym2 α)),
      pool.length ≤ fuel → (w :: t).Nodup →
      (∀ e ∈ M, ∀ u, u ∈ e → u ∉ w :: t) →
      (↑(pool.map canonSeg) : Multiset (Sym2 α)) = ↑((chainE (w :: t)).map canonSeg) + M →
      ∃ p2, build_chain fuel (x, w) pool = (chainE (w :: t), p2) ∧
        (↑(p2.map canonSeg) : Multiset (Sym2 α)) = M := by
  intro t
  induction t with
  | nil =>
    intro fuel w x pool M hfuel hnd havoid hcanon
    have hM : (↑(pool.map canonSeg) : Multiset (Sym2 α)) = M := by
      simpa [chainE] using hcanon
    have hnone : find_next_line (x, w) pool = none := by
      apply find_next_line_none
      intro s hs
      have hcs : canonSeg s ∈ M := by
        rw [← hM]
        exact Multiset.mem_coe.mpr (List.mem_map_of_mem _ hs)
      constructor
      · intro h1
        exact havoid (canonSeg s) hcs w (h1 ▸ Sym2.mem_mk_left s.1 s.2)
          (List.mem_cons_self ..)
      · intro h2
        exact havoid (canonSeg s) hcs w (h2 ▸ Sym2.mem_mk_right s.1 s.2)
          (List.mem_cons_self ..)
    refine ⟨pool, ?_, hM⟩
    cases fuel with
    | zero => rfl
    | succ n =>
      rw [build_chain, hnone]
      rfl
  | cons v t2 ih =>
    intro fuel w x pool M hfuel hnd havoid hcanon
    have hstep : (↑(pool.map canonSeg) : Multiset (Sym2 α)) =
        canonSeg (w, v) ::ₘ (↑((chainE (v :: t2)).map canonSeg) + M) := by
      rw [hcanon,
        show ((chainE (w :: v :: t2)).map canonSeg : List (Sym2 α)) =
          canonSeg (w, v) :: (chainE (v :: t2)).map canonSeg from rfl,
        ← Multiset.cons_coe, Multiset.cons_add]
    have hne : w ≠ v := by
      intro h
      exact (List.nodup_cons.mp hnd).1 (h ▸ List.mem_cons_self ..)
    have hmem : canonSeg (w, v) ∈ (↑(pool.map canonSeg) : Multiset (Sym2 α)) := by
      rw [hstep]
      exact Multiset.mem_cons_self ..
    obtain ⟨s0, hs0, hcs0⟩ := List.mem_map.mp (Multiset.mem_coe.mp hmem)
    have hex : ∃ s ∈ pool, s.1 = w ∨ s.2 = w := by
      refine ⟨s0, hs0, ?_⟩
      have hw : w ∈ Sym2.mk s0 := by
        rw [show Sym2.mk s0 = canonSeg s0 from rfl, hcs0]
        exact Sym2.mem_mk_left ..
      rcases Sym2.mem_iff.mp hw with h | h
      · exact Or.inl h.symm
      · exact Or.inr h.symm
    have huniq : ∀ s ∈ pool, (s.1 = w ∨ s.2 = w) → canonSeg s = canonSeg (w, v) := by
      intro s hs hor
      have hcs : canonSeg s ∈ (↑(pool.map canonSeg) : Multiset (Sym2 α)) :=
        Multiset.mem_coe.mpr (List.mem_map_of_mem _ hs)
      rw [hstep, Multiset.mem_cons] at hcs
      rcases hcs with h | h
      · exact h
      · exfalso
        have hwmem : w ∈ canonSeg s := by
          rcases hor with h1 | h1
          · exact h1 ▸ Sym2.mem_mk_left ..
          · exact h1 ▸ Sym2.mem_mk_right ..
        rw [Multiset.mem_add] at h
        rcases h with h | h
        · obtain ⟨e, he, hce⟩ := List.mem_map.mp (Multiset.mem_coe.mp h)
          obtain ⟨h1, h2⟩ := mem_chainE _ e he
          rw [← hce] at hwmem
          have hwin : w ∈ v :: t2 := by
            rcases Sym2.mem_iff.mp hwmem with h3 | h3
            · exact h3 ▸ h1
            · exact h3 ▸ h2
          exact (List.nodup_cons.mp hnd).1 hwin
        · exact havoid _ h w hwmem (List.mem_cons_self ..)
    obtain ⟨p2, hfind, hm2, hlen2⟩ := find_next_line_det x w v hne pool hex huniq
    have hp2 : (↑(p2.map canonSeg) : Multiset (Sym2 α)) =
        ↑((chainE (v :: t2)).map canonSeg) + M := by
      exact (Multiset.cons_inj_right _).mp (hm2.trans hstep)
    cases fuel with
    | zero =>
      exfalso
      have : pool.length = 0 := Nat.le_zero.mp hfuel
      omega
    | succ n =>
      have hfuel2 : p2.length ≤ n := by omega
      obtain ⟨p3, hbc, hm3⟩ := ih n v w p2 M hfuel2 hnd.of_cons
        (fun e he u hu hin => havoid e he u hu (List.mem_cons_of_mem _ hin)) hp2
      refine ⟨p3, ?_, hm3⟩
      rw [build_chain, hfind]
      show ((w, v) :: (build_chain n (w, v) p2).1, (build_chain n (w, v) p2).2) = _
      rw [hbc]
      rfl

theorem canon_append_cons (A B : List (α × α)) (e : α × α) :
    (↑((A ++ e :: B).map canonSeg) : Multiset (Sym2 α)) =
      canonSeg e ::ₘ (↑(A.map canonSeg) + ↑(B.map canonSeg)) := by
  rw [List.map_append, List.map_cons, ← Multiset.coe_add, ← Multiset.cons_coe,
    ← Multiset.singleton_add, ← Multiset.singleton_add, add_left_comm]

/-- One outer iteration of `group_loop` on a pool made of a path `w :: t`
(starting at the seed's end point) plus a leftover path `Q` (containing the
seed's start point, all vertices distinct): the chain consumes `w :: t`,
does not close — the path's far end differs from the seed's start — and the
loop continues on the leftover. -/
theorem group_loop_chain_step (n : ℕ) (seed : α × α) (rest : List (α × α))
    (w : α) (t Q : List α)
    (hw : w = seed.2)
    (hrest_le : rest.length ≤ n)
    (hnd : ((w :: t) ++ Q).Nodup)
    (hseed1 : seed.1 ∈ Q)
    (hcanon : (↑(rest.map canonSeg) : Multiset (Sym2 α)) =
      ↑((chainE (w :: t)).map canonSeg) + ↑((chainE Q).map canonSeg))
    (IH : ∀ (pool : List (α × α)) (lv : List α), pool.length ≤ n → lv.Nodup →
      (↑(pool.map canonSeg) : Multiset (Sym2 α)) = ↑((chainE lv).map canonSeg) →
      group_loop n pool = []) :
    group_loop (n + 1) (seed :: rest) = [] := by
  obtain ⟨hndP, hndQ, hdisj⟩ := List.nodup_append.mp hnd
  obtain ⟨p2, hbc, hm⟩ := build_chain_chainE t rest.length w seed.1 rest
    (↑((chainE Q).map canonSeg)) le_rfl hndP
    (by
      intro m hmQ u hu hin
      obtain ⟨e0, he0, hce0⟩ := List.mem_map.mp (Multiset.mem_coe.mp hmQ)
      obtain ⟨h1, h2⟩ := mem_chainE Q e0 he0
      rw [← hce0] at hu
      rcases Sym2.mem_iff.mp hu with h3 | h3
      · exact hdisj hin (h3 ▸ h1)
      · exact hdisj hin (h3 ▸ h2))
    hcanon
  have hseed : ((seed.1, w) : α × α) = seed := by rw [hw]
  rw [hseed] at hbc
  have hplen : p2.length = (chainE Q).length := by
    have := (Multiset.coe_eq_coe.mp hm).length_eq
    simpa using this
  have hrlen : rest.length = (chainE (w :: t)).length + (chainE Q).length := by
    have := congrArg Multiset.card hcanon
    simpa [Multiset.coe_card] using this
  show (if 1 < (seed :: (build_chain rest.length seed rest).1).length ∧
      ((seed :: (build_chain rest.length seed rest).1).getLast
        (List.cons_ne_nil _ _)).2 = seed.1 then
      (seed :: (build_chain rest.length seed rest).1) ::
        group_loop n (build_chain rest.length seed rest).2
    else group_loop n (build_chain rest.length seed rest).2) = []
  rw [hbc]
  rw [if_neg ?hcond]
  case hcond =>
    cases t with
    | nil =>
      rintro ⟨habs, -⟩
      simp [chainE] at habs
    | cons c t2 =>
      rintro ⟨-, habs⟩
      have hne : chainE (w :: c :: t2) ≠ [] := by rw [chainE]; simp
      rw [List.getLast_cons hne, chainE_getLast (w :: c :: t2) hne (by simp)] at habs
      have hinP : (w :: c :: t2).getLast (by simp) ∈ (w :: c :: t2) :=
        List.getLast_mem _
      exact hdisj (habs ▸ hinP) hseed1
  exact IH p2 Q (by omega) hndQ hm

/-- On a pool that forms a single open chain over distinct vertices, the
outer loop of `group_lines_into_polygon` emits no polygon at all. -/
theorem group_loop_chain :
    ∀ (fuel : ℕ) (pool : List (α × α)) (l : List α),
      pool.length ≤ fuel → l.Nodup →
      (↑(pool.map canonSeg) : Multiset (Sym2 α)) = ↑((chainE l).map canonSeg) →
      group_loop fuel pool = [] := by
  intro fuel
  induction fuel with
  | zero => intro pool l _ _ _; rfl
  | succ n ih =>
    intro pool l hfuel hnd hcanon
    cases pool with
    | nil => rfl
    | cons seed rest =>
      have hmem : canonSeg seed ∈ (chainE l).map canonSeg := by
        have hin : canonSeg seed ∈ (↑((seed :: rest).map canonSeg) : Multiset (Sym2 α)) :=
          Multiset.mem_coe.mpr (List.mem_map_of_mem _ (List.mem_cons_self ..))
        rw [hcanon] at hin
        exact Multiset.mem_coe.mp hin
      obtain ⟨e, he, hce⟩ := List.mem_map.mp hmem
      obtain ⟨l1, l2, hl, hc⟩ := mem_chainE_decomp l e he
      have hrest : (↑(rest.map canonSeg) : Multiset (Sym2 α)) =
          ↑((chainE (l1 ++ [e.1])).map canonSeg) + ↑((chainE (e.2 :: l2)).map canonSeg) := by
        have hpool : canonSeg seed ::ₘ (↑(rest.map canonSeg) : Multiset (Sym2 α)) =
            canonSeg seed ::ₘ (↑((chainE (l1 ++ [e.1])).map canonSeg) +
              ↑((chainE (e.2 :: l2)).map canonSeg)) := by
          rw [show canonSeg seed ::ₘ (↑(rest.map canonSeg) : Multiset (Sym2 α)) =
              ↑((seed :: rest).map canonSeg) by simp [← Multiset.cons_coe],
            hcanon, hc, canon_append_cons, hce]
        exact (Multiset.cons_inj_right _).mp hpool
      have hndl : (l1 ++ e.1 :: e.2 :: l2).Nodup := hl ▸ hnd
      have hnd3 : ((l1 ++ [e.1]) ++ (e.2 :: l2)).Nodup := by
        rw [show ((l1 ++ [e.1]) ++ (e.2 :: l2) : List α) = l1 ++ e.1 :: e.2 :: l2 by simp]
        exact hndl
      obtain ⟨hndA, hndB, hdisj⟩ := List.nodup_append.mp hnd3
      have hrle : rest.length ≤ n := by
        simp only [List.length_cons] at hfuel
        omega
      rcases Sym2.mk_eq_mk_iff.mp hce with heq | heq
      · -- the seed is the edge as oriented along the split
        refine group_loop_chain_step n seed rest e.2 l2 (l1 ++ [e.1])
          (by rw [heq]) hrle ?_ (by rw [heq]; simp) (by rw [hrest, add_comm]) ih
        rw [List.nodup_append]
        exact ⟨hndB, hndA, fun a ha hb => hdisj hb ha⟩
      · -- the seed is the flipped edge
        have hswap : seed = (e.2, e.1) := by rw [heq]; rfl
        refine group_loop_chain_step n seed rest e.1 l1.reverse (e.2 :: l2)
          (by rw [hswap]) hrle ?_ (by rw [hswap]; simp) ?_ ih
        · rw [List.nodup_append]
          refine ⟨?_, hndB, ?_⟩
          · rw [show (e.1 :: l1.reverse : List α) = (l1 ++ [e.1]).reverse from
              (List.reverse_concat l1 e.1).symm ▸ rfl]
            exact List.nodup_reverse.mpr hndA
          · intro a ha hb
            have haA : a ∈ l1 ++ [e.1] := by
              rcases List.mem_cons.mp ha with rfl | ha2
              · simp
              · exact List.mem_append_left _ (List.mem_reverse.mp ha2)
            exact hdisj haA hb
        · rw [hrest]
          congr 1
          rw [show (e.1 :: l1.reverse : List α) = (l1 ++ [e.1]).reverse from
            (List.reverse_concat l1 e.1).symm ▸ rfl]
          exact (chainE_reverse_canon (l1 ++ [e.1])).symm

theorem coe_map_cons (s : α × α) (rest : List (α × α)) :
    (↑((s :: rest).map canonSeg) : Multiset (Sym2 α)) =
      canonSeg s ::ₘ ↑(rest.map canonSeg) := by
  simp [← Multiset.cons_coe]

theorem loopE_eq (l : List α) (h : l ≠ []) :
    loopE l = chainE l ++ [(l.getLast h, l.head h)] := by
  cases l with
  | nil => exact absurd rfl h
  | cons a t => rfl

theorem add_add_singleton_eq (X Y : Multiset (Sym2 α)) (z : Sym2 α) :
    X + Y + {z} = z ::ₘ (Y + X) := by
  rw [← Multiset.singleton_add, add_comm X Y, add_comm]

/-- Removing the seed's edge from a closed loop leaves a pool that forms a
single open chain `P` running from the seed's end point back to the seed's
start point through all the other vertices. -/
theorem loop_minus_seed (l : List α) (seed : α × α) (rest : List (α × α))
    (hnd : l.Nodup) (h3 : 3 ≤ l.length)
    (hcanon : (↑((seed :: rest).map canonSeg) : Multiset (Sym2 α)) =
      ↑((loopE l).map canonSeg)) :
    ∃ (P : List α) (hP : P ≠ []), P.Nodup ∧ P.length = l.length ∧
      P.head hP = seed.2 ∧ P.getLast hP = seed.1 ∧
      (↑(rest.map canonSeg) : Multiset (Sym2 α)) = ↑((chainE P).map canonSeg) := by
  have hl0 : l ≠ [] := by intro h; rw [h] at h3; simp at h3
  have hloop := loopE_eq l hl0
  have hmem : canonSeg seed ∈ (loopE l).map canonSeg := by
    have hin : canonSeg seed ∈ (↑((seed :: rest).map canonSeg) : Multiset (Sym2 α)) :=
      Multiset.mem_coe.mpr (List.mem_map_of_mem _ (List.mem_cons_self ..))
    rw [hcanon] at hin
    exact Multiset.mem_coe.mp hin
  rw [hloop, List.map_append] at hmem
  rcases List.mem_append.mp hmem with hmem | hmem
  · -- the seed matches an open-chain edge of the loop
    obtain ⟨e, he, hce⟩ := List.mem_map.mp hmem
    obtain ⟨l1, l2, hl, hc⟩ := mem_chainE_decomp l e he
    have hAne : (l1 ++ [e.1] : List α) ≠ [] := by simp
    have hBne : (e.2 :: l2 : List α) ≠ [] := by simp
    have hsplit : l = (l1 ++ [e.1]) ++ (e.2 :: l2) := by rw [hl]; simp
    have hndl : ((l1 ++ [e.1]) ++ (e.2 :: l2)).Nodup := hsplit ▸ hnd
    have hBAnodup : ((e.2 :: l2) ++ (l1 ++ [e.1])).Nodup :=
      List.perm_append_comm.nodup hndl
    have hBAlen : ((e.2 :: l2) ++ (l1 ++ [e.1])).length = l.length := by
      rw [hsplit]
      simp [List.length_append]
      omega
    have hbridge : ((e.2 :: l2).getLast hBne, (l1 ++ [e.1]).head hAne) =
        (l.getLast hl0, l.head hl0) := by
      have h1 : l.getLast hl0 = (e.2 :: l2).getLast hBne := by
        rw [show l.getLast hl0 = ((l1 ++ [e.1]) ++ (e.2 :: l2)).getLast
            (by rw [← hsplit]; exact hl0) by congr 1 <;> exact hsplit]
        exact List.getLast_append' _ _ hBne
      have h2 : l.head hl0 = (l1 ++ [e.1]).head hAne := by
        rw [show l.head hl0 = ((l1 ++ [e.1]) ++ (e.2 :: l2)).head
            (by rw [← hsplit]; exact hl0) by congr 1 <;> exact hsplit]
        exact List.head_append_of_ne_nil hAne
      rw [h1, h2]
    have hchainBA : chainE ((e.2 :: l2) ++ (l1 ++ [e.1])) =
        chainE (e.2 :: l2) ++ (l.getLast hl0, l.head hl0) :: chainE (l1 ++ [e.1]) := by
      rw [chainE_append (e.2 :: l2) (l1 ++ [e.1]) hBne hAne, hbridge]
    have hrest : (↑(rest.map canonSeg) : Multiset (Sym2 α)) =
        ↑((chainE ((e.2 :: l2) ++ (l1 ++ [e.1]))).map canonSeg) := by
      have hpool : canonSeg seed ::ₘ (↑(rest.map canonSeg) : Multiset (Sym2 α)) =
          canonSeg seed ::ₘ ↑((chainE ((e.2 :: l2) ++ (l1 ++ [e.1]))).map canonSeg) := by
        rw [← coe_map_cons, hcanon, hloop, List.map_append, ← Multiset.coe_add, hc,
          canon_append_cons, hchainBA, canon_append_cons, hce]
        rw [show ((([(l.getLast hl0, l.head hl0)] : List (α × α)).map canonSeg) :
            List (Sym2 α)) = [canonSeg (l.getLast hl0, l.head hl0)] from rfl,
          Multiset.coe_singleton, Multiset.cons_add, add_add_singleton_eq]
      exact (Multiset.cons_inj_right _).mp hpool
    rcases Sym2.mk_eq_mk_iff.mp hce with heq | heq
    · -- e = seed : consume from e.2 forwards
      refine ⟨(e.2 :: l2) ++ (l1 ++ [e.1]), by simp, hBAnodup, hBAlen, ?_, ?_, hrest⟩
      · rw [← heq]
        rfl
      · rw [← heq]
        rw [List.getLast_append' _ _ hAne]
        exact List.getLast_append_singleton l1
    · -- e = seed.swap : consume the reversed chain
      have hswap : seed = (e.2, e.1) := by rw [heq]; rfl
      have hrevne : ((e.2 :: l2) ++ (l1 ++ [e.1])).reverse ≠ [] := by simp
      refine ⟨((e.2 :: l2) ++ (l1 ++ [e.1])).reverse, hrevne,
        List.nodup_reverse.mpr hBAnodup, by rw [List.length_reverse]; exact hBAlen,
        ?_, ?_, ?_⟩
      · rw [List.head_reverse, List.getLast_append' _ _ hAne,
          List.getLast_append_singleton l1, hswap]
      · rw [List.getLast_reverse, hswap]
        rfl
      · rw [chainE_reverse_canon]
        exact hrest
  · -- the seed matches the loop's closing edge
    have hcs : canonSeg seed = canonSeg (l.getLast hl0, l.head hl0) := by
      simpa using hmem
    have hrest : (↑(rest.map canonSeg) : Multiset (Sym2 α)) =
        ↑((chainE l).map canonSeg) := by
      have hpool : canonSeg seed ::ₘ (↑(rest.map canonSeg) : Multiset (Sym2 α)) =
          canonSeg seed ::ₘ ↑((chainE l).map canonSeg) := by
        rw [← coe_map_cons, hcanon, hloop, List.map_append, ← Multiset.coe_add, hcs,
          show ((([(l.getLast hl0, l.head hl0)] : List (α × α)).map canonSeg) :
            List (Sym2 α)) = [canonSeg (l.getLast hl0, l.head hl0)] from rfl,
          Multiset.coe_singleton, add_comm, Multiset.singleton_add]
      exact (Multiset.cons_inj_right _).mp hpool
    rcases Sym2.mk_eq_mk_iff.mp hcs with heq | heq
    · refine ⟨l, hl0, hnd, rfl, ?_, ?_, hrest⟩
      · rw [heq]
      · rw [heq]
    · have hswap : seed = (l.head hl0, l.getLast hl0) := by rw [heq]; rfl
      have hrevne : l.reverse ≠ [] := by simp [hl0]
      refine ⟨l.reverse, hrevne, List.nodup_reverse.mpr hnd, by simp, ?_, ?_, ?_⟩
      · rw [List.head_reverse, hswap]
      · rw [List.getLast_reverse, hswap]
      · rw [chainE_reverse_canon]
        exact hrest

theorem group_loop_nil : ∀ fuel : ℕ, group_loop fuel ([] : List (α × α)) = [] := by
  intro fuel
  cases fuel <;> rfl

theorem loopE_length (l : List α) (h : l ≠ []) : (loopE l).length = l.length := by
  rw [loopE_eq l h]
  have hpos := List.length_pos.mpr h
  simp [chainE_length]
  omega

/-- On a pool that forms a single closed loop over at least three distinct
vertices, `group_loop` emits exactly one polygon, with as many segments as
the loop has. -/
theorem group_loop_loopE (fuel : ℕ) (pool : List (α × α)) (l : List α)
    (hfuel : pool.length ≤ fuel) (hnd : l.Nodup) (h3 : 3 ≤ l.length)
    (hcanon : (↑(pool.map canonSeg) : Multiset (Sym2 α)) = ↑((loopE l).map canonSeg)) :
    ∃ poly, group_loop fuel pool = [poly] ∧ poly.length = l.length := by
  have hl0 : l ≠ [] := by intro h; rw [h] at h3; simp at h3
  have hplen : pool.length = l.length := by
    have hcard := congrArg Multiset.card hcanon
    simp only [Multiset.coe_card, List.length_map] at hcard
    rw [hcard, loopE_length l hl0]
  cases pool with
  | nil => exfalso; rw [List.length_nil] at hplen; omega
  | cons seed rest =>
    obtain ⟨P, hP, hPnd, hPlen, hPhead, hPlast, hPrest⟩ :=
      loop_minus_seed l seed rest hnd h3 hcanon
    cases P with
    | nil => exact absurd rfl hP
    | cons w t =>
      have hw : w = seed.2 := hPhead
      obtain ⟨p2, hbc, hm⟩ := build_chain_chainE t rest.length w seed.1 rest 0
        le_rfl hPnd (by intro e he; simp at he) (by rw [add_zero]; exact hPrest)
      have hp2 : p2 = [] := by
        have h0 : p2.map canonSeg = [] := by
          have := hm
          rwa [show (0 : Multiset (Sym2 α)) = ↑([] : List (Sym2 α)) from rfl,
            Multiset.coe_eq_coe, List.perm_nil] at this
        exact List.map_eq_nil.mp h0
      have hseed : ((seed.1, w) : α × α) = seed := by rw [hw]
      rw [hseed] at hbc
      have htne : t ≠ [] := by
        intro h
        rw [h, List.length_cons, List.length_nil] at hPlen
        omega
      have hcne : chainE (w :: t) ≠ [] := by
        rw [chainE_cons_of_ne_nil w t htne]
        simp
      cases fuel with
      | zero =>
        exfalso
        rw [List.length_cons] at hfuel
        omega
      | succ n =>
        refine ⟨seed :: chainE (w :: t), ?_, ?_⟩
        · show (if 1 < (seed :: (build_chain rest.length seed rest).1).length ∧
              ((seed :: (build_chain rest.length seed rest).1).getLast
                (List.cons_ne_nil _ _)).2 = seed.1 then
              (seed :: (build_chain rest.length seed rest).1) ::
                group_loop n (build_chain rest.length seed rest).2
            else group_loop n (build_chain rest.length seed rest).2) = _
          rw [hbc]
          rw [if_pos ?hcond]
          case hcond =>
            constructor
            · simp only [List.length_cons, chainE_length]
              rw [List.length_cons] at hPlen
              omega
            · rw [List.getLast_cons hcne,
                chainE_getLast (w :: t) hcne (List.cons_ne_nil _ _)]
              exact hPlast
          rw [hp2, group_loop_nil]
        · simp only [List.length_cons, chainE_length]
          rw [List.length_cons] at hPlen
          omega

/-- The edges of a closed loop over at least three distinct vertices are
pairwise distinct as unordered pairs. -/
theorem loopE_canon_nodup (l : List α) (hnd : l.Nodup) (h3 : 3 ≤ l.length) :
    ((loopE l).map canonSeg).Nodup := by
  have hl0 : l ≠ [] := by intro h; rw [h] at h3; simp at h3
  rw [loopE_eq l hl0, List.map_append, List.nodup_append]
  refine ⟨chainE_canon_nodup l hnd, by simp, ?_⟩
  intro a ha hb
  rw [show (([(l.getLast hl0, l.head hl0)] : List (α × α)).map canonSeg :
      List (Sym2 α)) = [canonSeg (l.getLast hl0, l.head hl0)] from rfl,
    List.mem_singleton] at hb
  subst hb
  obtain ⟨e, he, hce⟩ := List.mem_map.mp ha
  obtain ⟨l1, l2, hl, -⟩ := mem_chainE_decomp l e he
  subst hl
  rcases Sym2.mk_eq_mk_iff.mp hce with heq | heq
  · -- e.1 = last, e.2 = head : the head vertex would occur twice
    have h5 := congrArg Prod.snd heq
    cases l1 with
    | nil =>
      simp only [List.nil_append, List.head_cons] at h5 hnd
      exact (List.nodup_cons.mp hnd).1 (by rw [h5]; exact List.mem_cons_self ..)
    | cons c0 l1t =>
      simp only [List.cons_append, List.head_cons] at h5
      simp only [List.cons_append, List.nodup_cons] at hnd
      refine hnd.1 ?_
      rw [← h5]
      exact List.mem_append_right _ (List.mem_cons_of_mem _ (List.mem_cons_self ..))
  · -- e.1 = head, e.2 = last : only possible for a 2-vertex loop
    have h5 : e.1 = ((l1 ++ e.1 :: e.2 :: l2).head hl0) := congrArg Prod.fst heq
    cases l1 with
    | cons c0 l1t =>
      simp only [List.cons_append, List.head_cons] at h5
      simp only [List.cons_append, List.nodup_cons] at hnd
      refine hnd.1 ?_
      rw [← h5]
      exact List.mem_append_right _ (List.mem_cons_self ..)
    | nil =>
      have h6 : e.2 = (([] ++ e.1 :: e.2 :: l2).getLast hl0) := congrArg Prod.snd heq
      simp only [List.nil_append] at h6
      cases l2 with
      | nil =>
        simp only [List.nil_append] at h3
        simp at h3
      | cons d l2t =>
        rw [List.getLast_cons (List.cons_ne_nil _ _),
          List.getLast_cons (List.cons_ne_nil _ _)] at h6
        simp only [List.nil_append] at hnd
        refine (List.nodup_cons.mp (List.nodup_cons.mp hnd).2).1 ?_
        rw [h6]
        exact List.getLast_mem _

/-- **C6.** For every input that forms a single closed loop of `N` segments
over at least three distinct vertices — supplied in any order and with each
segment in either orientation — `group_lines_into_polygon` returns exactly
one polygon containing `N` segments; for every input forming a single
non-closing open chain over distinct vertices, it returns zero polygons. -/
theorem group_lines_single_loop_or_chain (lines : List (α × α)) (l : List α) :
    (l.Nodup → 3 ≤ l.length →
      (↑(lines.map canonSeg) : Multiset (Sym2 α)) = ↑((loopE l).map canonSeg) →
      ∃ poly, group_lines_into_polygon lines = [poly] ∧ poly.length = lines.length) ∧
    (l.Nodup → 2 ≤ l.length →
      (↑(lines.map canonSeg) : Multiset (Sym2 α)) = ↑((chainE l).map canonSeg) →
      group_lines_into_polygon lines = []) := by
  constructor
  · intro hnd h3 hcanon
    have hEnd := loopE_canon_nodup l hnd h3
    have hperm : List.Perm (lines.map canonSeg) ((loopE l).map canonSeg) :=
      Multiset.coe_eq_coe.mp hcanon
    have hlnd : (lines.map canonSeg).Nodup := hperm.nodup_iff.mpr hEnd
    have hded : lines.dedup = lines := List.dedup_eq_self.mpr hlnd.of_map
    rw [group_lines_into_polygon, hded]
    have hlen : lines.length = l.length := by
      have hml := hperm.length_eq
      simp only [List.length_map] at hml
      rw [hml, loopE_length l (by intro h; rw [h] at h3; simp at h3)]
    obtain ⟨poly, h1, h2⟩ := group_loop_loopE lines.length lines l le_rfl hnd h3 hcanon
    exact ⟨poly, h1, by rw [h2, hlen]⟩
  · intro hnd h2 hcanon
    have hEnd := chainE_canon_nodup l hnd
    have hperm : List.Perm (lines.map canonSeg) ((chainE l).map canonSeg) :=
      Multiset.coe_eq_coe.mp hcanon
    have hlnd : (lines.map canonSeg).Nodup := hperm.nodup_iff.mpr hEnd
    have hded : lines.dedup = lines := List.dedup_eq_self.mpr hlnd.of_map
    rw [group_lines_into_polygon, hded]
    exact group_loop_chain lines.length lines l le_rfl hnd hcanon

end ChainsAndLoops

set_option maxHeartbeats 1000000 in
/-- **C6 witness.** A shuffled, partly flipped unit square yields exactly
one 4-segment polygon; a two-segment open chain yields no polygon. -/
theorem group_lines_single_loop_or_chain_witness :
    (∃ poly, group_lines_into_polygon
        [(((1, 1) : ℤ × ℤ), ((1, 0) : ℤ × ℤ)), (((0, 0) : ℤ × ℤ), ((1, 0) : ℤ × ℤ)),
         (((0, 1) : ℤ × ℤ), ((0, 0) : ℤ × ℤ)), (((1, 1) : ℤ × ℤ), ((0, 1) : ℤ × ℤ))] =
        [poly] ∧ poly.length = 4) ∧
    group_lines_into_polygon
      [(((2, 0) : ℤ × ℤ), ((1, 0) : ℤ × ℤ)), (((0, 0) : ℤ × ℤ), ((1, 0) : ℤ × ℤ))] = [] := by
  constructor
  · obtain ⟨poly, h1, h2⟩ := (group_lines_single_loop_or_chain
      [(((1, 1) : ℤ × ℤ), ((1, 0) : ℤ × ℤ)), (((0, 0) : ℤ × ℤ), ((1, 0) : ℤ × ℤ)),
       (((0, 1) : ℤ × ℤ), ((0, 0) : ℤ × ℤ)), (((1, 1) : ℤ × ℤ), ((0, 1) : ℤ × ℤ))]
      [((0, 0) : ℤ × ℤ), ((1, 0) : ℤ × ℤ), ((1, 1) : ℤ × ℤ), ((0, 1) : ℤ × ℤ)]).1
      (by decide) (by decide) (by decide)
    exact ⟨poly, h1, h2⟩
  · exact (group_lines_single_loop_or_chain
      [(((2, 0) : ℤ × ℤ), ((1, 0) : ℤ × ℤ)), (((0, 0) : ℤ × ℤ), ((1, 0) : ℤ × ℤ))]
      [((0, 0) : ℤ × ℤ), ((1, 0) : ℤ × ℤ), ((2, 0) : ℤ × ℤ)]).2
      (by decide) (by decide) (by decide)

/-! ## Entity chaining (`src/comp_poly.py`)

Entities are the dictionaries built by `comp_poly.process_dxf`: working-frame
(UCS) and reference-frame (WCS) endpoints, a radius (0 for lines), an
optional direction and optional centers, plus the `sl_no`/`name` fields
filled in by `arrange_entities_systematically`. -/

/-- Arc orientation (the strings `"Clockwise"` / `"Anti-clockwise"`). -/
inductive Dir : Type
  | clockwise
  | anticlockwise
deriving DecidableEq

structure Entity : Type where
  sl_no : ℕ
  name : String
  start_point : Pt
  end_point : Pt
  start_point_wcs : Pt
  end_point_wcs : Pt
  radius : ℚ
  direction : Option Dir
  center : Option Pt
  center_wcs : Option Pt
deriving DecidableEq

/-- `are_points_equal` from `src/comp_poly.py`: componentwise comparison
within an absolute tolerance. -/
def are_points_equal (point1 point2 : Pt) (tolerance : ℚ) : Prop :=
  |point1.1 - point2.1| < tolerance ∧ |point1.2 - point2.2| < tolerance

instance (point1 point2 : Pt) (tolerance : ℚ) :
    Decidable (are_points_equal point1 point2 tolerance) :=
  inferInstanceAs (Decidable (_ ∧ _))

/-- Python tuple comparison `(x1, y1) < (x2, y2)`: lexicographic. -/
def keyLt (p q : Pt) : Prop := p.1 < q.1 ∨ (p.1 = q.1 ∧ p.2 < q.2)

instance (p q : Pt) : Decidable (keyLt p q) :=
  inferInstanceAs (Decidable (_ ∨ _))

/-- `find_leftmost_entity` from `src/comp_poly.py`: Python
`min(entities, key=lambda x: (x.start_point[0], x.start_point[1]))` over a
nonempty list — the first entity with lexicographically smallest start
point wins ties. -/
def find_leftmost_entity (e : Entity) (es : List Entity) : Entity :=
  es.foldl (fun best x => if keyLt x.start_point best.start_point then x else best) e

/-- The reversed copy built inside `find_connected_entity`: endpoints and
reference-frame endpoints swapped, the direction flipped when present. -/
def reverseEnt (entity : Entity) : Entity :=
  { entity with
    start_point := entity.end_point
    end_point := entity.start_point
    start_point_wcs := entity.end_point_wcs
    end_point_wcs := entity.start_point_wcs
    direction := entity.direction.map
      (fun d => match d with
        | Dir.clockwise => Dir.anticlockwise
        | Dir.anticlockwise => Dir.clockwise) }

/-- `find_connected_entity` from `src/comp_poly.py`: scan the unplaced
entities in order; per entity, first check whether its start point matches
the current end point (take it as is), then whether its end point matches
(take it reversed).  Returns the index of the matched entity and the
(possibly reversed) record. -/
def find_connected_entity (current_entity : Entity) : List Entity → Option (ℕ × Entity)
  | [] => none
  | entity :: rest =>
    if are_points_equal current_entity.end_point entity.start_point (1 / 1000) then
      some (0, entity)
    else if are_points_equal current_entity.end_point entity.end_point (1 / 1000) then
      some (0, reverseEnt entity)
    else
      match find_connected_entity current_entity rest with
      | none => none
      | some (i, r) => some (i + 1, r)

/-- The `while remaining` loop of `arrange_entities_systematically`,
fuel-indexed by the size of `remaining` (which strictly decreases). -/
def arrangeLoop : ℕ → Entity → List Entity → List Entity
  | 0, _, _ => []
  | fuel + 1, cur, remaining =>
    match remaining with
    | [] => []
    | r :: rs =>
      match find_connected_entity cur (r :: rs) with
      | some (i, nxt) => nxt :: arrangeLoop fuel nxt ((r :: rs).eraseIdx i)
      | none =>
        let s := find_leftmost_entity r rs
        s :: arrangeLoop fuel s ((r :: rs).erase s)

/-- The serial/name post-pass of `arrange_entities_systematically`: 1-based
serial numbers in final order, names from per-kind counters. -/
def nameLoop : ℕ → ℕ → ℕ → List Entity → List Entity
  | _, _, _, [] => []
  | i, line_count, arc_count, e :: es =>
    if e.radius = 0 then
      { e with sl_no := i + 1, name := "Line" ++ toString line_count } ::
        nameLoop (i + 1) (line_count + 1) arc_count es
    else
      { e with sl_no := i + 1, name := "Arc" ++ toString arc_count } ::
        nameLoop (i + 1) line_count (arc_count + 1) es

/-- `arrange_entities_systematically` from `src/comp_poly.py`. -/
def arrange_entities_systematically (results : List Entity) : List Entity :=
  match results with
  | [] => []
  | r :: rs =>
    let s := find_leftmost_entity r rs
    nameLoop 0 1 1 (s :: arrangeLoop rs.length s ((r :: rs).erase s))

/-- An entity with its `sl_no` and `name` fields cleared: arrangement
coverage is stated up to these two fields, which the post-pass overwrites. -/
def stripName (e : Entity) : Entity := { e with sl_no := 0, name := "" }

/-- A plain line entity between two points (used for concrete instances). -/
def sampleEnt (s e : Pt) : Entity :=
  ⟨0, "", s, e, s, e, 0, none, none, none⟩

/-- **C8 counterexample.** With the chain currently ending at `(0,0)`,
unplaced entities `[(5,5)→(0,0), (0,0)→(7,7)]` contain a start-point match
(the second entity), yet `find_connected_entity` returns the *first*
entity, reversed: the per-entity end-point check runs before later
entities' start points are ever inspected.  The returned record is a
reversed copy, not any unplaced entity taken verbatim. -/
theorem find_connected_entity_counterexample :
    are_points_equal (sampleEnt (9, 9) (0, 0)).end_point
      (sampleEnt (0, 0) (7, 7)).start_point (1 / 1000) ∧
    sampleEnt (0, 0) (7, 7) ∈ [sampleEnt (5, 5) (0, 0), sampleEnt (0, 0) (7, 7)] ∧
    find_connected_entity (sampleEnt (9, 9) (0, 0))
      [sampleEnt (5, 5) (0, 0), sampleEnt (0, 0) (7, 7)] =
      some (0, reverseEnt (sampleEnt (5, 5) (0, 0))) ∧
    reverseEnt (sampleEnt (5, 5) (0, 0)) ≠ sampleEnt (5, 5) (0, 0) ∧
    reverseEnt (sampleEnt (5, 5) (0, 0)) ≠ sampleEnt (0, 0) (7, 7) := by
  refine ⟨?_, by simp, ?_, ?_, ?_⟩
  · constructor <;> norm_num [sampleEnt, abs_sub_lt_iff]
  · rw [find_connected_entity,
      if_neg (by simp only [are_points_equal, sampleEnt, not_and]; norm_num [abs_sub_lt_iff]),
      if_pos (by constructor <;> norm_num [sampleEnt, abs_sub_lt_iff])]
  · simp only [reverseEnt, sampleEnt, ne_eq, Entity.mk.injEq, not_and]
    norm_num [Prod.ext_iff]
  · simp only [reverseEnt, sampleEnt, ne_eq, Entity.mk.injEq, not_and]
    norm_num [Prod.ext_iff]

/-- **C8 amended.** `find_connected_entity` returns the *first* unplaced
entity in scan order that matches at all, verbatim when its start point
matches the current end point (that check runs first), otherwise — its end
point matching — as a reversed record; a start-point match later in the
list does not take precedence over an earlier end-point match. -/
theorem find_connected_entity_first_match (cur : Entity) :
    ∀ (l : List Entity) (i : ℕ) (hi : i < l.length),
      (are_points_equal cur.end_point (l.get ⟨i, hi⟩).start_point (1 / 1000) ∨
        are_points_equal cur.end_point (l.get ⟨i, hi⟩).end_point (1 / 1000)) →
      (∀ (j : ℕ) (hj : j < l.length), j < i →
        ¬ are_points_equal cur.end_point (l.get ⟨j, hj⟩).start_point (1 / 1000) ∧
        ¬ are_points_equal cur.end_point (l.get ⟨j, hj⟩).end_point (1 / 1000)) →
      find_connected_entity cur l =
        some (i,
          if are_points_equal cur.end_point (l.get ⟨i, hi⟩).start_point (1 / 1000)
          then l.get ⟨i, hi⟩ else reverseEnt (l.get ⟨i, hi⟩)) := by
  intro l
  induction l with
  | nil => intro i hi; simp at hi
  | cons e es ih =>
    intro i hi hmatch hbefore
    cases i with
    | zero =>
      show find_connected_entity cur (e :: es) = some (0,
        if are_points_equal cur.end_point e.start_point (1 / 1000)
        then e else reverseEnt e)
      by_cases h1 : are_points_equal cur.end_point e.start_point (1 / 1000)
      · rw [find_connected_entity, if_pos h1, if_pos h1]
      · have h2 : are_points_equal cur.end_point e.end_point (1 / 1000) := by
          rcases hmatch with h | h
          · exact absurd h h1
          · exact h
        rw [find_connected_entity, if_neg h1, if_pos h2, if_neg h1]
    | succ i0 =>
      have hi0 : i0 < es.length := Nat.lt_of_succ_lt_succ hi
      show find_connected_entity cur (e :: es) = some (i0 + 1,
        if are_points_equal cur.end_point (es.get ⟨i0, hi0⟩).start_point (1 / 1000)
        then es.get ⟨i0, hi0⟩ else reverseEnt (es.get ⟨i0, hi0⟩))
      obtain ⟨h1, h2⟩ := hbefore 0 (by simp) (Nat.succ_pos i0)
      have h1e : ¬ are_points_equal cur.end_point e.start_point (1 / 1000) := h1
      have h2e : ¬ are_points_equal cur.end_point e.end_point (1 / 1000) := h2
      rw [find_connected_entity, if_neg h1e, if_neg h2e,
        ih i0 hi0 hmatch
          (fun j hj hji => hbefore (j + 1) (by simpa using Nat.succ_lt_succ hj)
            (Nat.succ_lt_succ hji))]

/-- **C8 amended witness.** With the chain ending at `(0,0)` and the first
unplaced entity matching nothing, the second entity's start-point match is
taken verbatim. -/
theorem find_connected_entity_first_match_witness :
    find_connected_entity (sampleEnt (9, 9) (0, 0))
      [sampleEnt (5, 5) (8, 8), sampleEnt (0, 0) (7, 7)] =
      some (1, sampleEnt (0, 0) (7, 7)) := by
  have h := find_connected_entity_first_match (sampleEnt (9, 9) (0, 0))
    [sampleEnt (5, 5) (8, 8), sampleEnt (0, 0) (7, 7)] 1 (by norm_num)
    (Or.inl (by constructor <;> norm_num [sampleEnt, abs_sub_lt_iff]))
    (by
      intro j hj hji
      have hj0 : j = 0 := by omega
      subst hj0
      constructor <;>
        · simp only [are_points_equal, sampleEnt, List.get]
          norm_num [abs_sub_lt_iff])
  rw [h, if_pos (by constructor <;> norm_num [sampleEnt, abs_sub_lt_iff])]
  rfl

/-- Arrangement-step relation: the appended entity is an unplaced entity
taken verbatim or reversed. -/
def Rrel (i o : Entity) : Prop := o = i ∨ o = reverseEnt i

theorem find_connected_entity_mem (cur : Entity) :
    ∀ (l : List Entity) (i : ℕ) (r : Entity), find_connected_entity cur l = some (i, r) →
      ∃ hi : i < l.length, Rrel (l.get ⟨i, hi⟩) r := by
  intro l
  induction l with
  | nil => intro i r h; exact Option.noConfusion h
  | cons e es ih =>
    intro i r h
    rw [find_connected_entity] at h
    split at h
    · rw [Option.some_inj] at h
      simp only [Prod.mk.injEq] at h
      obtain ⟨rfl, rfl⟩ := h
      exact ⟨by simp, Or.inl rfl⟩
    · split at h
      · rw [Option.some_inj] at h
        simp only [Prod.mk.injEq] at h
        obtain ⟨rfl, rfl⟩ := h
        exact ⟨by simp, Or.inr rfl⟩
      · split at h
        · exact Option.noConfusion h
        · rename_i i0 r0 hrec
          rw [Option.some_inj] at h
          simp only [Prod.mk.injEq] at h
          obtain ⟨rfl, rfl⟩ := h
          obtain ⟨hi0, hr0⟩ := ih i0 r0 hrec
          exact ⟨Nat.succ_lt_succ hi0, hr0⟩

theorem perm_get_cons_eraseIdx {β : Type} :
    ∀ (l : List β) (i : ℕ) (hi : i < l.length),
      List.Perm l (l.get ⟨i, hi⟩ :: l.eraseIdx i) := by
  intro l
  induction l with
  | nil => intro i hi; simp at hi
  | cons e es ih =>
    intro i hi
    cases i with
    | zero => exact List.Perm.refl _
    | succ j =>
      have h := ih j (Nat.lt_of_succ_lt_succ hi)
      exact (h.cons e).trans (List.Perm.swap _ _ _)

theorem find_leftmost_entity_mem : ∀ (es : List Entity) (e : Entity),
    find_leftmost_entity e es ∈ e :: es := by
  intro es
  induction es with
  | nil => intro e; simp [find_leftmost_entity]
  | cons x xs ih =>
    intro e
    show List.foldl _ (if keyLt x.start_point e.start_point then x else e) xs ∈ e :: x :: xs
    have h := ih (if keyLt x.start_point e.start_point then x else e)
    unfold find_leftmost_entity at h
    rcases List.mem_cons.mp h with h2 | h2
    · rw [h2]
      by_cases hk : keyLt x.start_point e.start_point
      · rw [if_pos hk]
        exact List.mem_cons_of_mem _ (List.mem_cons_self ..)
      · rw [if_neg hk]
        exact List.mem_cons_self ..
    · exact List.mem_cons_of_mem _ (List.mem_cons_of_mem _ h2)

set_option maxHeartbeats 1600000 in
/-- The arrangement loop uses up each unplaced entity exactly once: its
output is, pointwise up to reversal, a permutation of the remaining pool. -/
theorem arrangeLoop_perm :
    ∀ (fuel : ℕ) (cur : Entity) (remaining : List Entity), remaining.length ≤ fuel →
      ∃ p, List.Perm remaining p ∧ List.Forall₂ Rrel p (arrangeLoop fuel cur remaining) := by
  intro fuel
  induction fuel with
  | zero =>
    intro cur remaining hlen
    have h0 : remaining = [] := List.length_eq_zero.mp (Nat.le_zero.mp hlen)
    subst h0
    exact ⟨[], List.Perm.refl _, List.Forall₂.nil⟩
  | succ n ih =>
    intro cur remaining hlen
    cases remaining with
    | nil => exact ⟨[], List.Perm.refl _, List.Forall₂.nil⟩
    | cons r rs =>
      rw [List.length_cons] at hlen
      rcases hfc : find_connected_entity cur (r :: rs) with - | ⟨i, nxt⟩
      · have hmem : find_leftmost_entity r rs ∈ r :: rs := find_leftmost_entity_mem rs r
        have hlen2 : ((r :: rs).erase (find_leftmost_entity r rs)).length ≤ n := by
          rw [List.length_erase_of_mem hmem]
          simp only [List.length_cons]
          omega
        obtain ⟨p0, hp0, hf0⟩ := ih (find_leftmost_entity r rs)
          ((r :: rs).erase (find_leftmost_entity r rs)) hlen2
        refine ⟨find_leftmost_entity r rs :: p0, ?_, ?_⟩
        · exact (List.perm_cons_erase hmem).trans (hp0.cons _)
        · have hout : arrangeLoop (n + 1) cur (r :: rs) =
              find_leftmost_entity r rs ::
                arrangeLoop n (find_leftmost_entity r rs)
                  ((r :: rs).erase (find_leftmost_entity r rs)) := by
            simp only [arrangeLoop]
            rw [hfc]
          rw [hout]
          exact List.Forall₂.cons (Or.inl rfl) hf0
      · obtain ⟨hi, hr⟩ := find_connected_entity_mem cur (r :: rs) i nxt hfc
        have hlen2 : ((r :: rs).eraseIdx i).length ≤ n := by
          rw [List.length_eraseIdx_of_lt hi, List.length_cons]
          omega
        obtain ⟨p0, hp0, hf0⟩ := ih nxt ((r :: rs).eraseIdx i) hlen2
        refine ⟨(r :: rs).get ⟨i, hi⟩ :: p0, ?_, ?_⟩
        · exact (perm_get_cons_eraseIdx _ i hi).trans (hp0.cons _)
        · have hout : arrangeLoop (n + 1) cur (r :: rs) =
              nxt :: arrangeLoop n nxt ((r :: rs).eraseIdx i) := by
            simp only [arrangeLoop]
            rw [hfc]
          rw [hout]
          exact List.Forall₂.cons hr hf0

/-- The naming pass only overwrites `sl_no` and `name`. -/
theorem nameLoop_strip : ∀ (l : List Entity) (i lc ac : ℕ),
    List.Forall₂ (fun o o2 => stripName o2 = stripName o) l (nameLoop i lc ac l) := by
  intro l
  induction l with
  | nil => intro i lc ac; exact List.Forall₂.nil
  | cons e es ih =>
    intro i lc ac
    rw [nameLoop]
    by_cases he : e.radius = 0
    · rw [if_pos he]
      exact List.Forall₂.cons rfl (ih (i + 1) (lc + 1) ac)
    · rw [if_neg he]
      exact List.Forall₂.cons rfl (ih (i + 1) lc (ac + 1))

/-- The naming pass assigns consecutive serial numbers starting at `i + 1`. -/
theorem nameLoop_sl : ∀ (l : List Entity) (i lc ac : ℕ),
    (nameLoop i lc ac l).map (fun e => e.sl_no) = List.range' (i + 1) l.length := by
  intro l
  induction l with
  | nil => intro i lc ac; rfl
  | cons e es ih =>
    intro i lc ac
    rw [nameLoop]
    by_cases he : e.radius = 0
    · rw [if_pos he, List.map_cons, ih (i + 1) (lc + 1) ac, List.length_cons,
        List.range'_succ]
    · rw [if_neg he, List.map_cons, ih (i + 1) lc (ac + 1), List.length_cons,
        List.range'_succ]

/-- The naming pass names each output entity after its kind and the count of
same-kind entities up to and including it, offset by the initial counters. -/
theorem nameLoop_names : ∀ (l : List Entity) (i lc ac : ℕ), 1 ≤ lc → 1 ≤ ac →
    ∀ (l1 : List Entity) (x : Entity) (l2 : List Entity),
      nameLoop i lc ac l = l1 ++ x :: l2 →
      x.name =
        if x.radius = 0
        then "Line" ++ toString (lc - 1 +
          (l1 ++ [x]).countP (fun e => decide (e.radius = 0)))
        else "Arc" ++ toString (ac - 1 +
          (l1 ++ [x]).countP (fun e => !decide (e.radius = 0))) := by
  intro l
  induction l with
  | nil =>
    intro i lc ac _ _ l1 x l2 h
    rw [nameLoop] at h
    exact absurd h (List.append_ne_nil_of_right_ne_nil l1 (List.cons_ne_nil x l2)).symm
  | cons e es ih =>
    intro i lc ac hlc hac l1 x l2 h
    rw [nameLoop] at h
    by_cases he : e.radius = 0
    · rw [if_pos he] at h
      cases l1 with
      | nil =>
        rw [List.nil_append] at h
        obtain ⟨hx, -⟩ := List.cons.inj h.symm
        have hxr : x.radius = 0 := by rw [hx]; exact he
        have hxn : x.name = "Line" ++ toString lc := by rw [hx]
        rw [hxn, if_pos hxr]
        have hc : (([] : List Entity) ++ [x]).countP
            (fun e => decide (e.radius = 0)) = 1 := by
          simp [hxr]
        rw [hc, (by omega : lc - 1 + 1 = lc)]
      | cons y l1t =>
        rw [List.cons_append] at h
        obtain ⟨hy, ht⟩ := List.cons.inj h
        have hrec := ih (i + 1) (lc + 1) ac (by omega) hac l1t x l2 ht
        have hyr : y.radius = 0 := by rw [← hy]; exact he
        by_cases hxr : x.radius = 0
        · rw [if_pos hxr] at hrec ⊢
          rw [List.cons_append, List.countP_cons, decide_eq_true hyr, if_pos rfl,
            hrec]
          rw [(by omega : lc + 1 - 1 +
            (l1t ++ [x]).countP (fun e => decide (e.radius = 0)) =
            lc - 1 + ((l1t ++ [x]).countP (fun e => decide (e.radius = 0)) + 1))]
        · rw [if_neg hxr] at hrec ⊢
          rw [List.cons_append, List.countP_cons,
            (by simp [hyr] : (!decide (y.radius = 0)) = false),
            if_neg (by simp), Nat.add_zero, hrec]
    · rw [if_neg he] at h
      cases l1 with
      | nil =>
        rw [List.nil_append] at h
        obtain ⟨hx, -⟩ := List.cons.inj h.symm
        have hxr : ¬ x.radius = 0 := by rw [hx]; exact he
        have hxn : x.name = "Arc" ++ toString ac := by rw [hx]
        rw [hxn, if_neg hxr]
        have hc : (([] : List Entity) ++ [x]).countP
            (fun e => !decide (e.radius = 0)) = 1 := by
          simp [hxr]
        rw [hc, (by omega : ac - 1 + 1 = ac)]
      | cons y l1t =>
        rw [List.cons_append] at h
        obtain ⟨hy, ht⟩ := List.cons.inj h
        have hrec := ih (i + 1) lc (ac + 1) hlc (by omega) l1t x l2 ht
        have hyr : ¬ y.radius = 0 := by rw [← hy]; exact he
        by_cases hxr : x.radius = 0
        · rw [if_pos hxr] at hrec ⊢
          rw [List.cons_append, List.countP_cons,
            (by simp [hyr] : (decide (y.radius = 0)) = false),
            if_neg (by simp), Nat.add_zero, hrec]
        · rw [if_neg hxr] at hrec ⊢
          rw [List.cons_append, List.countP_cons,
            (by simp [hyr] : (!decide (y.radius = 0)) = true), if_pos rfl, hrec]
          rw [(by omega : ac + 1 - 1 +
            (l1t ++ [x]).countP (fun e => !decide (e.radius = 0)) =
            ac - 1 + ((l1t ++ [x]).countP (fun e => !decide (e.radius = 0)) + 1))]

/-- Composing arrangement coverage with the name pass: each output entity is
an input entity up to reversal, disregarding `sl_no` and `name`. -/
theorem forall2_strip_comp : ∀ {a b : List Entity},
    List.Forall₂ Rrel a b → ∀ {c : List Entity},
    List.Forall₂ (fun o o2 => stripName o2 = stripName o) b c →
    List.Forall₂ (fun i0 o => stripName o = stripName i0 ∨
      stripName o = stripName (reverseEnt i0)) a c := by
  intro a b h1
  induction h1 with
  | nil =>
    intro c h2
    cases h2
    exact List.Forall₂.nil
  | cons hxy _ ih =>
    intro c h2
    cases h2 with
    | cons hyz h2t =>
      refine List.Forall₂.cons ?_ (ih h2t)
      rcases hxy with h | h
      · exact Or.inl (by rw [hyz, h])
      · exact Or.inr (by rw [hyz, h])

/-- **C7.** For every non-empty input list of `N` entities,
`arrange_entities_systematically` returns exactly `N` entities in which every
input entity occurs exactly once, either verbatim or as a reversed record
(up to the `sl_no`/`name` fields, which the post-pass overwrites); `sl_no`
fields are assigned `1..N` in output order with no gaps; and wherever the
output decomposes as `l1 ++ x :: l2`, the name of `x` is `"Line"` followed
by the count of radius-zero entities in `l1 ++ [x]` when `x.radius = 0`,
and `"Arc"` followed by the count of nonzero-radius entities in `l1 ++ [x]`
otherwise: per-kind counters increment independently in traversal order. -/
theorem arrange_entities_spec (results : List Entity) (hne : results ≠ []) :
    (arrange_entities_systematically results).length = results.length ∧
    (∃ p, List.Perm results p ∧
      List.Forall₂ (fun i0 o => stripName o = stripName i0 ∨
        stripName o = stripName (reverseEnt i0)) p
        (arrange_entities_systematically results)) ∧
    (arrange_entities_systematically results).map (fun e => e.sl_no) =
      List.range' 1 results.length ∧
    (∀ (l1 : List Entity) (x : Entity) (l2 : List Entity),
      arrange_entities_systematically results = l1 ++ x :: l2 →
      x.name =
        if x.radius = 0
        then "Line" ++ toString ((l1 ++ [x]).countP (fun e => decide (e.radius = 0)))
        else "Arc" ++ toString ((l1 ++ [x]).countP (fun e => !decide (e.radius = 0)))) := by
  cases results with
  | nil => exact absurd rfl hne
  | cons r rs =>
    have hout : arrange_entities_systematically (r :: rs) =
        nameLoop 0 1 1 (find_leftmost_entity r rs ::
          arrangeLoop rs.length (find_leftmost_entity r rs)
            ((r :: rs).erase (find_leftmost_entity r rs))) := rfl
    have hmem : find_leftmost_entity r rs ∈ r :: rs := find_leftmost_entity_mem rs r
    have herlen : ((r :: rs).erase (find_leftmost_entity r rs)).length = rs.length := by
      rw [List.length_erase_of_mem hmem, List.length_cons]
      omega
    obtain ⟨p0, hp0, hf0⟩ := arrangeLoop_perm rs.length (find_leftmost_entity r rs)
      ((r :: rs).erase (find_leftmost_entity r rs)) (le_of_eq herlen)
    have hperm : List.Perm (r :: rs) (find_leftmost_entity r rs :: p0) :=
      (List.perm_cons_erase hmem).trans (hp0.cons _)
    have hcov : List.Forall₂ Rrel (find_leftmost_entity r rs :: p0)
        (find_leftmost_entity r rs ::
          arrangeLoop rs.length (find_leftmost_entity r rs)
            ((r :: rs).erase (find_leftmost_entity r rs))) :=
      List.Forall₂.cons (Or.inl rfl) hf0
    have hstrip := nameLoop_strip (find_leftmost_entity r rs ::
      arrangeLoop rs.length (find_leftmost_entity r rs)
        ((r :: rs).erase (find_leftmost_entity r rs))) 0 1 1
    have hlenA : (find_leftmost_entity r rs ::
        arrangeLoop rs.length (find_leftmost_entity r rs)
          ((r :: rs).erase (find_leftmost_entity r rs))).length = (r :: rs).length := by
      rw [← hcov.length_eq, ← hperm.length_eq]
    refine ⟨?_, ⟨find_leftmost_entity r rs :: p0, hperm, ?_⟩, ?_, ?_⟩
    · rw [hout, ← hstrip.length_eq, hlenA]
    · rw [hout]
      exact forall2_strip_comp hcov hstrip
    · rw [hout, nameLoop_sl, hlenA]
    · intro l1 x l2 hdec
      rw [hout] at hdec
      have h := nameLoop_names _ 0 1 1 (le_refl 1) (le_refl 1) l1 x l2 hdec
      simpa using h

/-- **C7 witness.** A concrete run: arranging the single line entity
`(0,0)→(1,0)` yields one entity with serial number `1`. -/
theorem arrange_entities_spec_witness :
    (arrange_entities_systematically [sampleEnt (0, 0) (1, 0)]).length = 1 ∧
    (arrange_entities_systematically [sampleEnt (0, 0) (1, 0)]).map
      (fun e => e.sl_no) = [1] := by
  obtain ⟨h1, -, h3, -⟩ := arrange_entities_spec [sampleEnt (0, 0) (1, 0)]
    (by simp)
  refine ⟨h1, ?_⟩
  rw [h3]
  rfl

/-- Euclidean length of the segment from `(x1, y1)` to `(x2, y2)`
(`length` in `calculate_offset`, `src/poly.py`). -/
noncomputable def segLength (x1 y1 x2 y2 : ℝ) : ℝ :=
  Real.sqrt ((x2 - x1) ^ 2 + (y2 - y1) ^ 2)

/-- `unit_perpendicular` from `calculate_offset`, `src/poly.py`:
the direction vector rotated 90 degrees, divided by the segment length. -/
noncomputable def unit_perpendicular (x1 y1 x2 y2 : ℝ) : ℝ × ℝ :=
  (-(y2 - y1) / segLength x1 y1 x2 y2, (x2 - x1) / segLength x1 y1 x2 y2)

/-- Python `round(x, 2)` on idealised reals. -/
noncomputable def round2 (x : ℝ) : ℝ := ((round (x * 100) : ℤ) : ℝ) / 100

/-- `round_coordinates` from `src/poly.py` on a 2D tuple. -/
noncomputable def round_coordinates (coord : ℝ × ℝ) : ℝ × ℝ :=
  (round2 coord.1, round2 coord.2)

/-- `calculate_offset` from `src/poly.py` (lines 80-98); the raised
`ValueError` on zero length is `none`. -/
noncomputable def calculate_offset (line : (ℝ × ℝ) × (ℝ × ℝ)) (distance : ℝ) :
    Option ((ℝ × ℝ) × (ℝ × ℝ)) :=
  let x1 := line.1.1
  let y1 := line.1.2
  let x2 := line.2.1
  let y2 := line.2.2
  if segLength x1 y1 x2 y2 = 0 then none
  else
    some (round_coordinates (x1 + (unit_perpendicular x1 y1 x2 y2).1 * distance,
                             y1 + (unit_perpendicular x1 y1 x2 y2).2 * distance),
          round_coordinates (x2 + (unit_perpendicular x1 y1 x2 y2).1 * distance,
                             y2 + (unit_perpendicular x1 y1 x2 y2).2 * distance))

/-- **C1.** `calculate_offset` fails (returns `none`) exactly when the
segment has zero length, i.e. when its endpoints coincide; otherwise the
vector `unit_perpendicular` -- the direction vector rotated 90 degrees and
divided by the segment length -- has unit norm and is perpendicular to the
segment, and the result is the two endpoints each translated by
`unit_perpendicular * distance`, with each output coordinate rounded to 2
decimal places by `round_coordinates`. -/
theorem calculate_offset_spec (x1 y1 x2 y2 d : ℝ) :
    (calculate_offset ((x1, y1), (x2, y2)) d = none ↔ (x1, y1) = (x2, y2)) ∧
    ((x1, y1) ≠ (x2, y2) →
      (unit_perpendicular x1 y1 x2 y2).1 ^ 2 + (unit_perpendicular x1 y1 x2 y2).2 ^ 2 = 1 ∧
      (unit_perpendicular x1 y1 x2 y2).1 * (x2 - x1) +
        (unit_perpendicular x1 y1 x2 y2).2 * (y2 - y1) = 0 ∧
      calculate_offset ((x1, y1), (x2, y2)) d =
        some (round_coordinates (x1 + (unit_perpendicular x1 y1 x2 y2).1 * d,
                                 y1 + (unit_perpendicular x1 y1 x2 y2).2 * d),
              round_coordinates (x2 + (unit_perpendicular x1 y1 x2 y2).1 * d,
                                 y2 + (unit_perpendicular x1 y1 x2 y2).2 * d))) := by
  have hzero : segLength x1 y1 x2 y2 = 0 ↔ (x1, y1) = (x2, y2) := by
    rw [segLength, Real.sqrt_eq_zero (by positivity), Prod.mk.injEq]
    constructor
    · intro h
      have hx : x2 - x1 = 0 := by nlinarith [sq_nonneg (x2 - x1), sq_nonneg (y2 - y1)]
      have hy : y2 - y1 = 0 := by nlinarith [sq_nonneg (x2 - x1), sq_nonneg (y2 - y1)]
      constructor <;> [linarith; linarith]
    · rintro ⟨hx, hy⟩
      rw [hx, hy]
      ring
  constructor
  · rw [calculate_offset]
    simp only []
    constructor
    · intro h
      by_cases hL : segLength x1 y1 x2 y2 = 0
      · exact hzero.mp hL
      · rw [if_neg hL] at h
        exact Option.noConfusion h
    · intro h
      rw [if_pos (hzero.mpr h)]
  · intro hne
    have hL : segLength x1 y1 x2 y2 ≠ 0 := fun h => hne (hzero.mp h)
    have hs : segLength x1 y1 x2 y2 ^ 2 = (x2 - x1) ^ 2 + (y2 - y1) ^ 2 := by
      rw [segLength]
      exact Real.sq_sqrt (by positivity)
    refine ⟨?_, ?_, ?_⟩
    · rw [unit_perpendicular]
      field_simp
      rw [hs]
      ring
    · rw [unit_perpendicular]
      field_simp
      ring
    · rw [calculate_offset]
      simp only []
      rw [if_neg hL]

/-- `round2` fixes integers. -/
theorem round2_intCast (n : ℤ) : round2 ((n : ℝ)) = (n : ℝ) := by
  rw [round2, show ((n : ℝ) * 100) = ((n * 100 : ℤ) : ℝ) by push_cast; ring,
    round_intCast]
  push_cast
  ring

/-- **C1 witness.** Offsetting the segment `(0,0)-(3,4)` by `5` succeeds
and yields `((-4, 3), (-1, 7))`: the unit perpendicular is `(-4/5, 3/5)`. -/
theorem calculate_offset_spec_witness :
    ((0 : ℝ), (0 : ℝ)) ≠ ((3 : ℝ), (4 : ℝ)) ∧
    calculate_offset (((0 : ℝ), (0 : ℝ)), ((3 : ℝ), (4 : ℝ))) 5 =
      some ((-4, 3), (-1, 7)) := by
  have hne : ((0 : ℝ), (0 : ℝ)) ≠ ((3 : ℝ), (4 : ℝ)) := by
    intro h
    exact absurd (congrArg Prod.fst h) (by norm_num)
  obtain ⟨-, -, heq⟩ := (calculate_offset_spec 0 0 3 4 5).2 hne
  have hL : segLength 0 0 3 4 = 5 := by
    rw [segLength, show ((3 : ℝ) - 0) ^ 2 + ((4 : ℝ) - 0) ^ 2 = 5 ^ 2 by norm_num,
      Real.sqrt_sq (by norm_num : (0 : ℝ) ≤ 5)]
  have hu : unit_perpendicular 0 0 3 4 = (-4 / 5, 3 / 5) := by
    rw [unit_perpendicular, hL]
    norm_num
  refine ⟨hne, ?_⟩
  rw [heq, hu]
  have h1 : ((0 : ℝ) + (-4 / 5, (3 : ℝ) / 5).1 * 5, (0 : ℝ) + (-4 / 5, (3 : ℝ) / 5).2 * 5) =
      (((-4 : ℤ) : ℝ), ((3 : ℤ) : ℝ)) := by
    norm_num
  have h2 : ((3 : ℝ) + (-4 / 5, (3 : ℝ) / 5).1 * 5, (4 : ℝ) + (-4 / 5, (3 : ℝ) / 5).2 * 5) =
      (((-1 : ℤ) : ℝ), ((7 : ℤ) : ℝ)) := by
    norm_num
  rw [h1, h2, round_coordinates, round_coordinates]
  simp only [round2_intCast]
  norm_num

/-- Decimal digit characters of `n` (most significant first), by fuel;
`natDigits n n` is the full representation for `n > 0`. -/
def natDigits : ℕ → ℕ → List Char
  | 0, _ => []
  | fuel + 1, n => if n = 0 then [] else natDigits fuel (n / 10) ++ [Nat.digitChar (n % 10)]

/-- Decimal representation of a natural number. -/
def natRepr (n : ℕ) : String := if n = 0 then "0" else String.mk (natDigits n n)

/-- Python `f"{x:.2f}"` on idealised numbers: round to a number of
hundredths, then print sign, integer part, a point and two digits. -/
def fmt2 (q : ℚ) : String :=
  (if round (q * 100) < 0 then "-" else "") ++
    natRepr ((round (q * 100)).natAbs / 100) ++ "." ++
    String.mk [Nat.digitChar ((round (q * 100)).natAbs % 100 / 10),
               Nat.digitChar ((round (q * 100)).natAbs % 10)]

/-- The body of the `for entity in results` loop of `generate_gcode`
(`src/comp_poly.py` lines 146-168), emitting each G-code line as its list
of space-separated words.  `first` is the `first_point` flag; `zcut` is the
rendering of `z_cut`. -/
def gcodeLoop : List Entity → Bool → ℤ → String → List (List String)
  | [], _, _, _ => []
  | e :: es, first, feed, zcut =>
    (if first then
      [["G00", "X" ++ fmt2 e.start_point.1, "Y" ++ fmt2 e.start_point.2],
       ["G01", "Z" ++ zcut, "F" ++ toString feed]]
     else []) ++
    (if e.radius = 0 then
      [["G01", "X" ++ fmt2 e.end_point.1, "Y" ++ fmt2 e.end_point.2,
        "F" ++ toString feed]]
     else
      [[(if e.direction = some Dir.clockwise then "G02" else "G03"),
        "X" ++ fmt2 e.end_point.1, "Y" ++ fmt2 e.end_point.2,
        "I" ++ fmt2 ((e.center.getD (0, 0)).1 - e.start_point.1),
        "J" ++ fmt2 ((e.center.getD (0, 0)).2 - e.start_point.2),
        "F" ++ toString feed]]) ++
    gcodeLoop es false feed zcut

/-- `generate_gcode` from `src/comp_poly.py` (lines 127-173) as word lists:
the fixed preamble, the entity loop, and the fixed postamble.  `zsafe` and
`zcut` are the renderings of the `z_safe` / `z_cut` parameters. -/
def generate_gcode (results : List Entity) (feed : ℤ) (zsafe zcut : String) :
    List (List String) :=
  [["G00", "G54", "G17", "G90", "G40"],
   ["G00", "Z" ++ zsafe],
   ["M6", "T07"],
   ["G00", "X100", "Y100"],
   ["M03", "S500"],
   ["G00", "Z2"],
   ["G01", "Z" ++ zcut, "F" ++ toString feed],
   ["M07"],
   ["G01", "G42", "X80", "Y0"]] ++
  gcodeLoop results true feed zcut ++
  [["G00", "G40", "Z200"], ["M30"]]

/-- A string printed with exactly two decimal places: everything before a
single point, then exactly two digits. -/
def TwoDecimals (s : String) : Prop :=
  ∃ (pre : List Char) (a b : Char),
    s.data = pre ++ ['.', a, b] ∧ a.isDigit = true ∧ b.isDigit = true ∧ '.' ∉ pre

theorem string_data_append (a b : String) : (a ++ b).data = a.data ++ b.data := rfl

theorem natDigits_digits : ∀ (fuel n : ℕ), ∀ c ∈ natDigits fuel n, c.isDigit = true := by
  intro fuel
  induction fuel with
  | zero => intro n c hc; exact absurd hc (List.not_mem_nil c)
  | succ m ih =>
    intro n c hc
    rw [natDigits] at hc
    by_cases hn : n = 0
    · rw [if_pos hn] at hc
      exact absurd hc (List.not_mem_nil c)
    · rw [if_neg hn] at hc
      rcases List.mem_append.mp hc with h | h
      · exact ih (n / 10) c h
      · rw [List.mem_singleton] at h
        subst h
        have h10 : n % 10 < 10 := Nat.mod_lt n (by omega)
        interval_cases hv : n % 10 <;> rfl

theorem natRepr_no_dot (n : ℕ) : '.' ∉ (natRepr n).data := by
  rw [natRepr]
  by_cases hn : n = 0
  · rw [if_pos hn]
    decide
  · rw [if_neg hn]
    intro hmem
    have := natDigits_digits n n '.' hmem
    exact absurd this (by decide)

theorem fmt2_twoDecimals (q : ℚ) : TwoDecimals (fmt2 q) := by
  refine ⟨(if round (q * 100) < 0 then "-" else "").data ++
    (natRepr ((round (q * 100)).natAbs / 100)).data,
    Nat.digitChar ((round (q * 100)).natAbs % 100 / 10),
    Nat.digitChar ((round (q * 100)).natAbs % 10), ?_, ?_, ?_, ?_⟩
  · rw [fmt2, string_data_append, string_data_append, string_data_append]
    simp [List.append_assoc]
  · have h : (round (q * 100)).natAbs % 100 / 10 < 10 := by
      have := Nat.mod_lt (round (q * 100)).natAbs (show 0 < 100 by omega)
      omega
    interval_cases hv : (round (q * 100)).natAbs % 100 / 10 <;> rfl
  · have h : (round (q * 100)).natAbs % 10 < 10 :=
      Nat.mod_lt _ (by omega)
    interval_cases hv : (round (q * 100)).natAbs % 10 <;> rfl
  · intro hmem
    rcases List.mem_append.mp hmem with h | h
    · by_cases hs : round (q * 100) < 0
      · rw [if_pos hs] at h
        exact absurd h (by decide)
      · rw [if_neg hs] at h
        exact absurd h (by decide)
    · exact natRepr_no_dot _ h

/-- **C9 counterexample.** The fixed preamble line `"G00 X100 Y100"` of
`generate_gcode` contains the coordinate word `X100`, whose value `100` is
not formatted with two decimal places (it contains no decimal point at
all). -/
theorem generate_gcode_counterexample :
    ["G00", "X100", "Y100"] ∈ generate_gcode [] 200 "200.0" "0.0" ∧
    "X100" ∈ (["G00", "X100", "Y100"] : List String) ∧
    "X100".data.head? = some 'X' ∧
    ¬ TwoDecimals (String.mk "X100".data.tail) := by
  refine ⟨by decide, by decide, rfl, ?_⟩
  rintro ⟨pre, a, b, hdata, -, -, -⟩
  have hdata2 : ('1' :: '0' :: '0' :: [] : List Char) = pre ++ '.' :: a :: b :: [] :=
    hdata
  cases pre with
  | nil =>
    rw [List.nil_append] at hdata2
    exact absurd (List.cons.inj hdata2).1 (by decide)
  | cons c1 pt =>
    rw [List.cons_append] at hdata2
    obtain ⟨-, h2⟩ := List.cons.inj hdata2
    cases pt with
    | nil =>
      rw [List.nil_append] at h2
      exact absurd (List.cons.inj h2).1 (by decide)
    | cons c2 pt2 =>
      rw [List.cons_append] at h2
      obtain ⟨-, h3⟩ := List.cons.inj h2
      cases pt2 with
      | nil =>
        rw [List.nil_append] at h3
        exact absurd (List.cons.inj h3).1 (by decide)
      | cons c3 pt3 =>
        rw [List.cons_append] at h3
        obtain ⟨-, h4⟩ := List.cons.inj h3
        exact absurd h4.symm
          (List.append_ne_nil_of_right_ne_nil pt3 (List.cons_ne_nil _ _))

theorem string_mk_data (s : String) : String.mk s.data = s := rfl

theorem tagged_twoDecimals (t : String) (c : Char) (h : t.data = [c]) (q : ℚ) :
    TwoDecimals (String.mk ((t ++ fmt2 q).data).tail) := by
  have hd : (t ++ fmt2 q).data = c :: (fmt2 q).data := by
    rw [string_data_append, h]
    rfl
  rw [hd]
  show TwoDecimals (String.mk (fmt2 q).data)
  rw [string_mk_data]
  exact fmt2_twoDecimals q

theorem not_coord (w : String) (c : Char) (hs : w.data.head? = some c)
    (h1 : c ≠ 'X') (h2 : c ≠ 'Y') (h3 : c ≠ 'I') (h4 : c ≠ 'J') :
    (w.data.head? = some 'X' ∨ w.data.head? = some 'Y' ∨
     w.data.head? = some 'I' ∨ w.data.head? = some 'J') →
    TwoDecimals (String.mk w.data.tail) := by
  rintro (h | h | h | h)
  · exact absurd (Option.some.inj (hs.symm.trans h)) h1
  · exact absurd (Option.some.inj (hs.symm.trans h)) h2
  · exact absurd (Option.some.inj (hs.symm.trans h)) h3
  · exact absurd (Option.some.inj (hs.symm.trans h)) h4

theorem generate_gcode_loop_coords :
    ∀ (results : List Entity) (first : Bool) (feed : ℤ) (zcut : String),
      ∀ line ∈ gcodeLoop results first feed zcut, ∀ w ∈ line,
        (w.data.head? = some 'X' ∨ w.data.head? = some 'Y' ∨
         w.data.head? = some 'I' ∨ w.data.head? = some 'J') →
        TwoDecimals (String.mk w.data.tail) := by
  intro results
  induction results with
  | nil =>
    intro first feed zcut line hline
    exact absurd hline (List.not_mem_nil _)
  | cons e es ih =>
    intro first feed zcut line hline w hw
    rw [gcodeLoop] at hline
    rcases List.mem_append.mp hline with hA | hrest
    · rcases List.mem_append.mp hA with h1 | h2
      · cases first with
        | false =>
          rw [if_neg (by simp)] at h1
          exact absurd h1 (List.not_mem_nil _)
        | true =>
          rw [if_pos rfl] at h1
          simp only [List.mem_cons, List.not_mem_nil, or_false] at h1
          rcases h1 with rfl | rfl
          · simp only [List.mem_cons, List.not_mem_nil, or_false] at hw
            rcases hw with rfl | rfl | rfl
            · exact not_coord _ 'G' rfl (by decide) (by decide) (by decide) (by decide)
            · exact fun _ => tagged_twoDecimals "X" 'X' rfl _
            · exact fun _ => tagged_twoDecimals "Y" 'Y' rfl _
          · simp only [List.mem_cons, List.not_mem_nil, or_false] at hw
            rcases hw with rfl | rfl | rfl
            · exact not_coord _ 'G' rfl (by decide) (by decide) (by decide) (by decide)
            · exact not_coord _ 'Z' rfl (by decide) (by decide) (by decide) (by decide)
            · exact not_coord _ 'F' rfl (by decide) (by decide) (by decide) (by decide)
      · by_cases he : e.radius = 0
        · rw [if_pos he] at h2
          simp only [List.mem_cons, List.not_mem_nil, or_false] at h2
          subst h2
          simp only [List.mem_cons, List.not_mem_nil, or_false] at hw
          rcases hw with rfl | rfl | rfl | rfl
          · exact not_coord _ 'G' rfl (by decide) (by decide) (by decide) (by decide)
          · exact fun _ => tagged_twoDecimals "X" 'X' rfl _
          · exact fun _ => tagged_twoDecimals "Y" 'Y' rfl _
          · exact not_coord _ 'F' rfl (by decide) (by decide) (by decide) (by decide)
        · rw [if_neg he] at h2
          simp only [List.mem_cons, List.not_mem_nil, or_false] at h2
          subst h2
          simp only [List.mem_cons, List.not_mem_nil, or_false] at hw
          rcases hw with rfl | rfl | rfl | rfl | rfl | rfl
          · refine not_coord _ 'G' ?_ (by decide) (by decide) (by decide) (by decide)
            by_cases hd : e.direction = some Dir.clockwise
            · rw [if_pos hd]; rfl
            · rw [if_neg hd]; rfl
          · exact fun _ => tagged_twoDecimals "X" 'X' rfl _
          · exact fun _ => tagged_twoDecimals "Y" 'Y' rfl _
          · exact fun _ => tagged_twoDecimals "I" 'I' rfl _
          · exact fun _ => tagged_twoDecimals "J" 'J' rfl _
          · exact not_coord _ 'F' rfl (by decide) (by decide) (by decide) (by decide)
    · exact ih false feed zcut line hrest w hw

/-- **C9.** Every line emitted by the entity loop of `generate_gcode`
appears in its output, and within those lines every coordinate word
tagged `X`, `Y`, `I` or `J` carries a value formatted with exactly two
decimal places.  (The fixed preamble is excluded: it contains literal
coordinate words such as `X100` that are not 2-decimal, and the `Z` words
render the `z_safe`/`z_cut` parameters with Python's default float
formatting.) -/
theorem generate_gcode_entity_coords (results : List Entity) (feed : ℤ)
    (zsafe zcut : String) :
    (∀ line ∈ gcodeLoop results true feed zcut,
      line ∈ generate_gcode results feed zsafe zcut) ∧
    (∀ line ∈ gcodeLoop results true feed zcut, ∀ w ∈ line,
      (w.data.head? = some 'X' ∨ w.data.head? = some 'Y' ∨
       w.data.head? = some 'I' ∨ w.data.head? = some 'J') →
      TwoDecimals (String.mk w.data.tail)) := by
  constructor
  · intro line hline
    rw [generate_gcode]
    exact List.mem_append_left _ (List.mem_append_right _ hline)
  · intro line hline
    exact generate_gcode_loop_coords results true feed zcut line hline

/-- **C9 witness.** In the G-code for a single line entity starting at the
origin, the first rapid move's `X` word is two-decimal (`X0.00`). -/
theorem generate_gcode_entity_coords_witness :
    (["G00", "X" ++ fmt2 0, "Y" ++ fmt2 0] ∈
        generate_gcode [sampleEnt (0, 0) (1, 0)] 200 "200.0" "0.0") ∧
    TwoDecimals (String.mk (("X" ++ fmt2 0).data).tail) := by
  have h := generate_gcode_entity_coords [sampleEnt (0, 0) (1, 0)] 200 "200.0" "0.0"
  have hline : ["G00", "X" ++ fmt2 0, "Y" ++ fmt2 0] ∈
      gcodeLoop [sampleEnt (0, 0) (1, 0)] true 200 "0.0" := by
    rw [gcodeLoop]
    refine List.mem_append_left _ (List.mem_append_left _ ?_)
    rw [if_pos rfl]
    exact List.mem_cons_self _ _
  exact ⟨h.1 _ hline,
    h.2 _ hline _ (List.mem_cons_of_mem _ (List.mem_cons_self _ _)) (Or.inl rfl)⟩
